import Mathlib

/-!
# cluster2: a shallow embedding of `cluster.go`

Go strings are modelled as lists of characters (`List Char`); the separators the
program splits on are all ASCII, so splitting by character and by byte agree on
valid UTF-8 text.  Go `int` is taken to be 64 bits wide (as on amd64), `int64`
arithmetic wraps modulo `2 ^ 64`, a Go `panic` or `os.Exit` is an `Option.none`; the
run of `SendMessages` keeps the transmissions made before a panic and flags the panic.
Sockets are identified by the endpoint they are bound or connected to, channels by the
sequence of envelopes passed through them.
-/

namespace Cluster

/-! ## Go standard library functions used by the program -/

/-- Two's complement wrap-around of a mathematical integer into the `int64` range. -/
def wrap64 (x : Int) : Int := (x + 2 ^ 63) % 2 ^ 64 - 2 ^ 63

/-- The value fits the Go `int64` (and 64-bit `int`) type. -/
def InInt64 (x : Int) : Prop := -(2 ^ 63) ≤ x ∧ x < 2 ^ 63

instance (x : Int) : Decidable (InInt64 x) := by unfold InInt64; infer_instance

/-- Worker of `Split`: `skip` counts the characters of a separator occurrence still to
be stepped over, `cur` is the piece collected so far. -/
def splitAux (sep : List Char) : List Char → Nat → List Char → List (List Char)
  | [], _, cur => [cur]
  | _ :: cs, skip + 1, cur => splitAux sep cs skip cur
  | c :: cs, 0, cur =>
    if sep.isPrefixOf (c :: cs) then cur :: splitAux sep cs (sep.length - 1) []
    else splitAux sep cs 0 (cur ++ [c])

/-- Go `strings.Split(s, sep)` for a non-empty `sep`: the pieces between the successive
non-overlapping occurrences of `sep`, found from the left. -/
def Split (s sep : List Char) : List (List Char) := splitAux sep s 0 []

/-- Go `strings.Contains(s, substr)`. -/
def Contains (s substr : List Char) : Bool := s.tails.any (fun t => substr.isPrefixOf t)

/-- Go `unicode.IsSpace`. -/
def isSpace (c : Char) : Bool :=
  let n := c.toNat
  (9 ≤ n && n ≤ 13) || n = 32 || n = 0x85 || n = 0xA0 || n = 0x1680 ||
  (0x2000 ≤ n && n ≤ 0x200a) || n = 0x2028 || n = 0x2029 || n = 0x202f ||
  n = 0x205f || n = 0x3000

/-- Go `strings.TrimSpace`: drop leading and trailing white space. -/
def TrimSpace (s : List Char) : List Char :=
  ((s.dropWhile isSpace).reverse.dropWhile isSpace).reverse

/-- The value of a decimal digit character. -/
def digitVal (c : Char) : Option Nat :=
  if 48 ≤ c.toNat ∧ c.toNat ≤ 57 then some (c.toNat - 48) else none

/-- The character of a decimal digit. -/
def digitChar (d : Nat) : Char := Char.ofNat (48 + d)

/-- Accumulate a run of decimal digits, as the loop of `strconv.Atoi` does. -/
def parseDigits : List Char → Nat → Option Nat
  | [], n => some n
  | c :: cs, n =>
    match digitVal c with
    | none => none
    | some d => parseDigits cs (n * 10 + d)

/-- Go `strconv.Atoi` on a 64-bit platform: an optional sign followed by one or more
decimal digits, whose value fits `int`; `none` stands for a non-nil error. -/
def Atoi (s : List Char) : Option Int :=
  match s with
  | [] => none
  | c :: cs =>
    let neg := c = '-'
    let body := if c = '-' ∨ c = '+' then cs else s
    if body = [] then none
    else
      match parseDigits body 0 with
      | none => none
      | some n =>
        let v : Int := if neg then -(n : Int) else (n : Int)
        if InInt64 v then some v else none

/-- Worker of `formatNat`, most significant digit first. -/
def formatNatAux : Nat → Nat → List Char → List Char
  | 0, _, acc => acc
  | fuel + 1, n, acc =>
    if n < 10 then digitChar n :: acc
    else formatNatAux fuel (n / 10) (digitChar (n % 10) :: acc)

/-- Decimal rendering of a natural number. -/
def formatNat (n : Nat) : List Char := formatNatAux (n + 1) n []

/-- Decimal rendering of an integer, as `fmt` prints an `int` under `%v`
(and `strconv.Itoa`). -/
def Itoa (v : Int) : List Char :=
  if v < 0 then '-' :: formatNat v.natAbs else formatNat v.natAbs

/-! ## The envelope and its wire format -/

/-- The broadcast sentinel. -/
def BROADCAST : Int := -1

/-- The message envelope: recipient id, message id, text. -/
structure Envelope where
  Pid : Int
  MsgId : Int
  Msg : List Char
  deriving DecidableEq, Repr

/-- The frame `SendMessage(msg)` puts on the wire for `msg : *Envelope`: zmq4 sends a
part that is neither a string nor a byte slice as `fmt.Sprintf("%v", part)`, which
for a pointer to a struct is `&{Pid MsgId Msg}`. -/
def encode (e : Envelope) : List Char :=
  ['&', '{'] ++ Itoa e.Pid ++ [' '] ++ Itoa e.MsgId ++ [' '] ++ e.Msg ++ ['}']

/-- The decoding steps of `ReceiveMessages` on one received frame `msg[0]`.
`none` is a panic: an index out of range, a failed `check_err`, or `text[1:]`
on an empty `text`. -/
def decodeFrame (frame : List Char) : Option Envelope := do
  let a1 := Split frame ['&', '{']
  let a1_1 ← a1[1]?
  let a2 := Split a1_1 [' ']
  let a2_0 ← a2[0]?
  let pid ← Atoi a2_0
  let a2_1 ← a2[1]?
  let mid ← Atoi a2_1
  let msgid := mid
  let text := (a2.drop 2).foldl (fun text a2_b => text ++ [' '] ++ a2_b) []
  let text1 ← if 1 ≤ text.length then some (text.drop 1) else none
  let msgtext ← (Split text1 ['}'])[0]?
  pure { Pid := pid, MsgId := msgid, Msg := msgtext }

/-- `QueueInbox`: the envelope is sent on the inbox channel, here the sequence of
envelopes that have arrived in the inbox. -/
def QueueInbox (e : Envelope) (inbox : List Envelope) : List Envelope := inbox ++ [e]

/-- One iteration of the loop of `ReceiveMessages`: decode the frame and queue the
envelope into the inbox; `none` when the iteration panics, before anything is queued. -/
def ReceiveMessages (inbox : List Envelope) (frame : List Char) : Option (List Envelope) :=
  match decodeFrame frame with
  | none => none
  | some e => some (QueueInbox e inbox)

/-! ## The package-level tables and `ParseConfig` -/

/-- Go `m[k]` on a `map[int]V`, kept as an association list: the stored value, or the
zero value of `V` when the key is absent. -/
def mapGet {V : Type} (zero : V) (m : List (Int × V)) (k : Int) : V :=
  match m.lookup k with
  | some v => v
  | none => zero

/-- Go `m[k] = v`: any earlier entry of the key is replaced. -/
def mapSet {V : Type} (m : List (Int × V)) (k : Int) (v : V) : List (Int × V) :=
  (k, v) :: m.filter (fun kv => kv.1 != k)

/-- The package-level variables `Peers`, `PeerAddress` and `peerIdIndex`. -/
structure Tables where
  Peers : List Int
  PeerAddress : List (Int × List Char)
  peerIdIndex : List (Int × Nat)
  deriving DecidableEq, Repr

/-- The tables of a fresh process. -/
def Tables.empty : Tables := { Peers := [], PeerAddress := [], peerIdIndex := [] }

/-- The chunks that successive calls of `rdconf.ReadString` return with a nil error:
the newline-terminated pieces of the file, each with its newline.  Text after the last
newline comes back together with `io.EOF`, on which the loop of `ParseConfig` breaks. -/
def readLines : List Char → List Char → List (List Char)
  | [], _ => []
  | c :: cs, cur => if c = Char.ofNat 10 then (cur ++ [c]) :: readLines cs [] else readLines cs (cur ++ [c])

/-- The duplicate check of `ParseConfig`: the loop over `Peers` with the loop over the
values of `PeerAddress` nested in it; `some code` when it returns `code`. -/
def dupCheck (nodeid : Int) (address : List Char) (PeerAddress : List (Int × List Char)) :
    List Int → Option Int
  | [] => none
  | p :: ps =>
    if p = nodeid then some 1
    else if PeerAddress.any (fun kv => kv.2 = address) then some 2
    else dupCheck nodeid address PeerAddress ps

/-- What one iteration of the loop of `ParseConfig` does with the line it read. -/
inductive LineResult where
  | panic
  | ret (code : Int)
  | next (tb : Tables) (index : Nat)
  deriving DecidableEq, Repr

/-- The body of the loop of `ParseConfig` for one line `nline` read without error. -/
def processLine (nline : List Char) (tb : Tables) (index : Nat) : LineResult :=
  let fields := Split nline [Char.ofNat 10]
  match fields[0]? with
  | none => LineResult.panic
  | some line0 =>
    if !Contains nline ['#'] && line0 ≠ [] then
      let pair := Split line0 [',']
      match pair[0]?, pair[1]? with
      | some pair0, some pair1 =>
        let id := TrimSpace pair0
        let address := TrimSpace pair1
        match Atoi id with
        | none => LineResult.panic
        | some nodeid =>
          match dupCheck nodeid address tb.PeerAddress tb.Peers with
          | some code => LineResult.ret code
          | none =>
            LineResult.next
              { Peers := tb.Peers ++ [nodeid]
                peerIdIndex := mapSet tb.peerIdIndex nodeid index
                PeerAddress := mapSet tb.PeerAddress nodeid address }
              (index + 1)
      | _, _ => LineResult.panic
    else LineResult.next tb index

/-- The loop of `ParseConfig` over the lines read; `none` is a panic, otherwise the
returned code and the tables as the call leaves them. -/
def parseLines : List (List Char) → Tables → Nat → Option (Int × Tables)
  | [], tb, _ => some (0, tb)
  | nline :: more, tb, index =>
    match processLine nline tb index with
    | LineResult.panic => none
    | LineResult.ret code => some (code, tb)
    | LineResult.next tb1 index1 => parseLines more tb1 index1

/-- `ParseConfig` on a file with the given content, from the given tables. -/
def ParseConfig (content : List Char) (tb : Tables) : Option (Int × Tables) :=
  parseLines (readLines content []) tb 0

/-! ## Nodes and `NewCluster` -/

/-- A zmq socket, identified by the endpoint it is bound or connected to. -/
structure Socket where
  endpoint : List Char
  deriving DecidableEq, Repr

/-- The server object (its two channels are the outbox and inbox sequences). -/
structure servernode where
  ServerId : Int
  ServerAddress : List Char
  PeersId : List Int
  PeerServers : List (Int × List Char)
  MessageId : Int
  Serversocket : Socket
  Peersockets : List Socket
  deriving DecidableEq, Repr

/-- The first loop of `NewCluster`: one node per entry of `Peers`, its PULL socket
bound to its address, no outbound socket yet. -/
def bindNodes (tb : Tables) : List servernode :=
  tb.Peers.map (fun nodeid =>
    { ServerId := nodeid
      ServerAddress := mapGet [] tb.PeerAddress nodeid
      PeersId := tb.Peers
      PeerServers := tb.PeerAddress
      MessageId := wrap64 (nodeid * 1000)
      Serversocket := { endpoint := mapGet [] tb.PeerAddress nodeid }
      Peersockets := [] })

/-- The second loop of `NewCluster`: every node gets, for each node `serv[j]` in order,
a PUSH socket connected to `PeerServers[serv[j].ServerId]`. -/
def connectNodes (serv : List servernode) : List servernode :=
  serv.map (fun si =>
    { si with
      Peersockets := si.Peersockets ++
        serv.map (fun sj => { endpoint := mapGet [] si.PeerServers sj.ServerId }) })

/-- `NewCluster` on a file with the given content: `none` when `ParseConfig` panics or
returns a non-zero code (the process exits), otherwise the nodes and the tables. -/
def NewCluster (configFile : List Char) (tb : Tables) : Option (List servernode × Tables) :=
  match ParseConfig configFile tb with
  | none => none
  | some (code, tb1) =>
    if code ≠ 0 then none else some (connectNodes (bindNodes tb1), tb1)

/-! ## `SendMessages` -/

/-- One call of `SendMessage`: the index of the socket in `Peersockets`, the socket,
and the envelope as it is rendered into the frame. -/
structure Transmission where
  index : Nat
  socket : Socket
  msg : Envelope
  deriving DecidableEq, Repr

/-- The progress of `SendMessages`: the counter `s.MessageId`, the transmissions made
so far, and whether the goroutine has panicked. -/
structure SendRun where
  MessageId : Int
  sent : List Transmission
  panicked : Bool
  deriving DecidableEq, Repr

/-- The loop over `Peers` for an envelope whose `Pid` was `BROADCAST`. -/
def broadcastLoop (tb : Tables) (s : servernode) (msg : Envelope) : List Int → SendRun → SendRun
  | [], run => run
  | p :: ps, run =>
    let msg1 : Envelope := { msg with Pid := p, MsgId := run.MessageId }
    let counter := wrap64 (run.MessageId + 1)
    match s.Peersockets[mapGet 0 tb.peerIdIndex msg1.Pid]? with
    | none => { MessageId := counter, sent := run.sent, panicked := true }
    | some sock =>
      broadcastLoop tb s msg ps
        { MessageId := counter
          sent := run.sent ++ [{ index := mapGet 0 tb.peerIdIndex msg1.Pid, socket := sock, msg := msg1 }]
          panicked := false }

/-- What `SendMessages` does with one envelope taken from the outbox. -/
def sendOne (tb : Tables) (s : servernode) (msg : Envelope) (run : SendRun) : SendRun :=
  if msg.Pid = BROADCAST then broadcastLoop tb s msg tb.Peers run
  else
    let targetID := mapGet 0 tb.peerIdIndex msg.Pid
    let msg1 : Envelope := { msg with MsgId := run.MessageId }
    let counter := wrap64 (run.MessageId + 1)
    match s.Peersockets[targetID]? with
    | none => { MessageId := counter, sent := run.sent, panicked := true }
    | some sock =>
      { MessageId := counter
        sent := run.sent ++ [{ index := targetID, socket := sock, msg := msg1 }]
        panicked := false }

/-- The loop of `SendMessages` over the envelopes drained from the outbox. -/
def sendLoop (tb : Tables) (s : servernode) : List Envelope → SendRun → SendRun
  | [], run => run
  | msg :: more, run =>
    let run1 := sendOne tb s msg run
    if run1.panicked then run1 else sendLoop tb s more run1

/-- `SendMessages(s)` on the given outbox sequence. -/
def SendMessages (tb : Tables) (s : servernode) (outbox : List Envelope) : SendRun :=
  sendLoop tb s outbox { MessageId := s.MessageId, sent := [], panicked := false }

/-- The message ids stamped on the transmissions of a run, in order. -/
def stamped (run : SendRun) : List Int := run.sent.map (fun t => t.msg.MsgId)

/-! ## Auxiliary functions used to state the results -/

/-- The text before the first occurrence of `sep` (all of it when there is none). -/
def firstPiece (sep : List Char) : List Char → List Char
  | [] => []
  | c :: cs => if sep.isPrefixOf (c :: cs) then [] else c :: firstPiece sep cs

/-- What the decoding steps recover of a message text `m` sent in a frame: the frame's
tail `m ++ "}"` cut before the first `&{`, then cut before the first `}`. -/
def decodedMsg (m : List Char) : List Char :=
  firstPiece ['}'] (firstPiece ['&', '{'] (m ++ ['}']))

/-- The peer list has no repetition and the index table sends every peer id to a
position of the peer list that holds it. -/
def TablesOk (tb : Tables) : Prop :=
  tb.Peers.Nodup ∧ ∀ p ∈ tb.Peers, tb.Peers[mapGet 0 tb.peerIdIndex p]? = some p

/-- The node `NewCluster` builds for the peer id `p` of the tables `tb`. -/
def nodeOf (tb : Tables) (p : Int) : servernode :=
  { ServerId := p
    ServerAddress := mapGet [] tb.PeerAddress p
    PeersId := tb.Peers
    PeerServers := tb.PeerAddress
    MessageId := wrap64 (p * 1000)
    Serversocket := { endpoint := mapGet [] tb.PeerAddress p }
    Peersockets := tb.Peers.map (fun q => { endpoint := mapGet [] tb.PeerAddress q }) }

/-- The transmission of a broadcast envelope `msg` to the peer `ip.2`, the `ip.1`-th
since the counter was at `c`. -/
def fanout (tb : Tables) (msg : Envelope) (c : Int) (ip : Nat × Int) : Transmission :=
  { index := mapGet 0 tb.peerIdIndex ip.2
    socket := { endpoint := mapGet [] tb.PeerAddress ip.2 }
    msg := { Pid := ip.2, MsgId := wrap64 (c + (ip.1 : Int)), Msg := msg.Msg } }

/-- The ids stamped so far are the successive values of a wrapping counter started at
`c0`, and the counter of a run that has not panicked is at the next value. -/
def StampOk (c0 : Int) (run : SendRun) : Prop :=
  stamped run = (List.range run.sent.length).map (fun (i : Nat) => wrap64 (c0 + (i : Int))) ∧
  (run.panicked = false → run.MessageId = wrap64 (c0 + (run.sent.length : Int)))

/-- A line of a configuration file, without its newline: a comment, an empty line, or
a record with the text of its id field, the id that text stands for, and the text of
its address field. -/
inductive ConfLine where
  | comment (text : List Char)
  | blank
  | record (nodeid : Int) (idText addressText : List Char)

/-- The text of a line. -/
def ConfLine.text : ConfLine → List Char
  | ConfLine.comment t => t
  | ConfLine.blank => []
  | ConfLine.record _ i a => i ++ [','] ++ a

/-- A comment contains a `#`; the fields of a record contain no `#` and no comma and
the trimmed id field is the decimal text of the id; no line contains a newline. -/
def ConfLine.WellFormed : ConfLine → Prop
  | ConfLine.comment t => '#' ∈ t ∧ Char.ofNat 10 ∉ t
  | ConfLine.blank => True
  | ConfLine.record n i a =>
    (∀ c ∈ i ++ a, c ≠ '#' ∧ c ≠ ',' ∧ c ≠ Char.ofNat 10) ∧ Atoi (TrimSpace i) = some n

instance (l : ConfLine) : Decidable l.WellFormed := by
  cases l <;> unfold ConfLine.WellFormed <;> infer_instance

/-- The file made of the given lines, each terminated by a newline. -/
def renderFile : List ConfLine → List Char
  | [] => []
  | l :: ls => l.text ++ Char.ofNat 10 :: renderFile ls

/-- The records of a file, in file order: id and whitespace-trimmed address. -/
def records : List ConfLine → List (Int × List Char)
  | [] => []
  | ConfLine.record n _ a :: ls => (n, TrimSpace a) :: records ls
  | ConfLine.comment _ :: ls => records ls
  | ConfLine.blank :: ls => records ls

/-- Appending one record to the tables. -/
def addPeer (tb : Tables) (r : Int × List Char) : Tables :=
  { Peers := tb.Peers ++ [r.1]
    peerIdIndex := mapSet tb.peerIdIndex r.1 tb.Peers.length
    PeerAddress := mapSet tb.PeerAddress r.1 r.2 }

/-- The records are new to the tables and pairwise distinct in id and in address. -/
def Fresh (tb : Tables) (recs : List (Int × List Char)) : Prop :=
  (recs.map Prod.fst).Nodup ∧ (recs.map Prod.snd).Nodup ∧
  ∀ r ∈ recs, r.1 ∉ tb.Peers ∧ ∀ kv ∈ tb.PeerAddress, kv.2 ≠ r.2

/-- Every key of the address table is in the peer list. -/
def KeysOk (tb : Tables) : Prop := ∀ kv ∈ tb.PeerAddress, kv.1 ∈ tb.Peers

/-- The configuration file `1,a⏎2,b⏎3,c⏎`. -/
def conf3 : List Char :=
  ['1', ',', 'a', Char.ofNat 10, '2', ',', 'b', Char.ofNat 10, '3', ',', 'c', Char.ofNat 10]

/-- The tables `ParseConfig` builds from `conf3`. -/
def tables3 : Tables :=
  { Peers := [1, 2, 3]
    PeerAddress := [(3, ['c']), (2, ['b']), (1, ['a'])]
    peerIdIndex := [(3, 2), (2, 1), (1, 0)] }

/-- The node of id `p` that `NewCluster` builds from `conf3`. -/
def node3 (p : Int) (address : List Char) : servernode :=
  { ServerId := p
    ServerAddress := address
    PeersId := [1, 2, 3]
    PeerServers := [(3, ['c']), (2, ['b']), (1, ['a'])]
    MessageId := p * 1000
    Serversocket := { endpoint := address }
    Peersockets := [{ endpoint := ['a'] }, { endpoint := ['b'] }, { endpoint := ['c'] }] }

/-- The configuration file with the single record `9223372036854775,a`. -/
def confBig : List Char :=
  ['9', '2', '2', '3', '3', '7', '2', '0', '3', '6', '8', '5', '4', '7', '7', '5', ',', 'a',
    Char.ofNat 10]

/-- The lines `1,a`, `# c`, the empty line, ` 2 , b ` and `3,c`. -/
def lines3 : List ConfLine :=
  [ConfLine.record 1 ['1'] ['a'], ConfLine.comment ['#', ' ', 'c'], ConfLine.blank,
    ConfLine.record 2 [' ', '2', ' '] [' ', 'b', ' '], ConfLine.record 3 ['3'] ['c']]

/-- The tables `ParseConfig` builds from `confBig`. -/
def tablesBig : Tables :=
  { Peers := [9223372036854775]
    PeerAddress := [(9223372036854775, ['a'])]
    peerIdIndex := [(9223372036854775, 0)] }

/-- The node that `NewCluster` builds from `confBig`. -/
def nodeBig : servernode :=
  { ServerId := 9223372036854775
    ServerAddress := ['a']
    PeersId := [9223372036854775]
    PeerServers := [(9223372036854775, ['a'])]
    MessageId := 9223372036854775000
    Serversocket := { endpoint := ['a'] }
    Peersockets := [{ endpoint := ['a'] }] }

/-- The text of a message before its first `}` or `&{`, all of it when it holds
neither: what is left of the text when it is cut at the first structural token. -/
def textBeforeToken : List Char → List Char
  | [] => []
  | c :: cs =>
    if c = '}' ∨ (c = '&' ∧ cs.head? = some '{') then [] else c :: textBeforeToken cs

/-! # Theorems -/

/-! ## Lemmas on the library functions -/

theorem digitVal_digitChar (d : Nat) (h : d < 10) : digitVal (digitChar d) = some d := by
  interval_cases d <;> decide

theorem digitChar_ne (d : Nat) (h : d < 10) :
    digitChar d ≠ ' ' ∧ digitChar d ≠ '&' ∧ digitChar d ≠ '-' ∧ digitChar d ≠ '+' := by
  interval_cases d <;> decide

theorem parseDigits_append (xs ys : List Char) (k : Nat) :
    parseDigits (xs ++ ys) k = (parseDigits xs k).bind (parseDigits ys) := by
  induction xs generalizing k with
  | nil => simp [parseDigits]
  | cons c cs ih =>
    simp only [List.cons_append, parseDigits]
    cases digitVal c with
    | none => simp
    | some d => simpa using ih _

theorem formatNatAux_acc (fuel n : Nat) (acc : List Char) :
    formatNatAux fuel n acc = formatNatAux fuel n [] ++ acc := by
  induction fuel generalizing n acc with
  | zero => simp [formatNatAux]
  | succ f ih =>
    simp only [formatNatAux]
    split
    · simp
    · rw [ih (n / 10) (digitChar (n % 10) :: acc), ih (n / 10) [digitChar (n % 10)]]
      simp

theorem parseDigits_formatNatAux (fuel n : Nat) (h : n < fuel) :
    parseDigits (formatNatAux fuel n []) 0 = some n := by
  induction fuel generalizing n with
  | zero => omega
  | succ f ih =>
    simp only [formatNatAux]
    split
    · next hlt => simp [parseDigits, digitVal_digitChar n hlt]
    · next hge =>
      rw [formatNatAux_acc, parseDigits_append, ih (n / 10) (by omega)]
      simp [parseDigits, digitVal_digitChar (n % 10) (by omega)]
      omega

theorem parseDigits_formatNat (n : Nat) : parseDigits (formatNat n) 0 = some n :=
  parseDigits_formatNatAux (n + 1) n (by omega)

theorem formatNatAux_chars (fuel n : Nat) (acc : List Char) (c : Char)
    (hc : c ∈ formatNatAux fuel n acc) : c ∈ acc ∨ ∃ d, d < 10 ∧ c = digitChar d := by
  induction fuel generalizing n acc with
  | zero => left; simpa [formatNatAux] using hc
  | succ f ih =>
    simp only [formatNatAux] at hc
    split at hc
    · next hlt =>
      rcases List.mem_cons.1 hc with h | h
      · exact Or.inr ⟨n, hlt, h⟩
      · exact Or.inl h
    · rcases ih _ _ hc with h | h
      · rcases List.mem_cons.1 h with h | h
        · exact Or.inr ⟨n % 10, by omega, h⟩
        · exact Or.inl h
      · exact Or.inr h

theorem formatNat_chars (n : Nat) (c : Char) (hc : c ∈ formatNat n) :
    ∃ d, d < 10 ∧ c = digitChar d := by
  rcases formatNatAux_chars _ _ _ _ hc with h | h
  · simp at h
  · exact h

theorem formatNat_ne_nil (n : Nat) : formatNat n ≠ [] := by
  intro h
  have := parseDigits_formatNat n
  unfold formatNat formatNatAux at h
  split at h
  · simp at h
  · rw [formatNatAux_acc] at h
    simp at h

theorem Itoa_chars (v : Int) (c : Char) (hc : c ∈ Itoa v) : c ≠ ' ' ∧ c ≠ '&' := by
  unfold Itoa at hc
  have key : ∀ n, c ∈ formatNat n → c ≠ ' ' ∧ c ≠ '&' := by
    intro n h
    obtain ⟨d, hd, rfl⟩ := formatNat_chars n c h
    exact ⟨(digitChar_ne d hd).1, (digitChar_ne d hd).2.1⟩
  split at hc
  · rcases List.mem_cons.1 hc with h | h
    · subst h; decide
    · exact key _ h
  · exact key _ hc

theorem Atoi_neg_formatNat (n : Nat) (hv : InInt64 (-(n : Int))) :
    Atoi ('-' :: formatNat n) = some (-(n : Int)) := by
  have hne := formatNat_ne_nil n
  simp only [Atoi, true_or, if_true, hne, if_false, parseDigits_formatNat, hv]

theorem Atoi_formatNat (n : Nat) (hv : InInt64 (n : Int)) :
    Atoi (formatNat n) = some (n : Int) := by
  have hne := formatNat_ne_nil n
  match hf : formatNat n with
  | [] => exact absurd hf hne
  | c :: cs =>
    obtain ⟨d, hd, hcd⟩ := formatNat_chars n c (by simp [hf])
    have h1 : c ≠ '-' := hcd ▸ (digitChar_ne d hd).2.2.1
    have h2 : c ≠ '+' := hcd ▸ (digitChar_ne d hd).2.2.2
    simp only [Atoi, h1, h2, or_self, if_false]
    rw [← hf]
    simp only [hne, if_false, parseDigits_formatNat, hv, if_true]

theorem Atoi_Itoa (v : Int) (hv : InInt64 v) : Atoi (Itoa v) = some v := by
  unfold Itoa
  split
  · next hneg =>
    have hv2 : (-(v.natAbs : Int)) = v := by omega
    have := Atoi_neg_formatNat v.natAbs (by rw [hv2]; exact hv)
    rw [this, hv2]
  · next hpos =>
    have hv2 : ((v.natAbs : Nat) : Int) = v := by omega
    have := Atoi_formatNat v.natAbs (by rw [hv2]; exact hv)
    rw [this, hv2]

theorem splitAux_ne_nil (sep s : List Char) (k : Nat) (cur : List Char) :
    splitAux sep s k cur ≠ [] := by
  induction s generalizing k cur with
  | nil => simp [splitAux]
  | cons c cs ih =>
    cases k with
    | zero =>
      simp only [splitAux]
      split
      · simp
      · exact ih _ _
    | succ k => simpa [splitAux] using ih k cur

theorem splitAux_head (sep s cur : List Char) :
    (splitAux sep s 0 cur)[0]? = some (cur ++ firstPiece sep s) := by
  induction s generalizing cur with
  | nil => simp [splitAux, firstPiece]
  | cons c cs ih =>
    simp only [splitAux, firstPiece]
    split
    · simp
    · rw [ih]; simp

theorem Split_head (s sep : List Char) : (Split s sep)[0]? = some (firstPiece sep s) := by
  simpa using splitAux_head sep s []

theorem splitAux_append (c1 : Char) (t a b cur : List Char) (ha : c1 ∉ a) :
    splitAux (c1 :: t) (a ++ b) 0 cur = splitAux (c1 :: t) b 0 (cur ++ a) := by
  induction a generalizing cur with
  | nil => simp
  | cons x xs ih =>
    have hx : c1 ≠ x := fun h => ha (by simp [h])
    have hxs : c1 ∉ xs := fun h => ha (by simp [h])
    have hb : (c1 == x) = false := by simpa using hx
    simp only [List.cons_append, splitAux, List.isPrefixOf, hb, Bool.false_and,
      Bool.false_eq_true, if_false, List.append_eq]
    rw [ih _ hxs]
    simp

theorem firstPiece_append (c1 : Char) (t a b : List Char) (ha : c1 ∉ a) :
    firstPiece (c1 :: t) (a ++ b) = a ++ firstPiece (c1 :: t) b := by
  induction a with
  | nil => simp
  | cons x xs ih =>
    have hx : c1 ≠ x := fun h => ha (by simp [h])
    have hxs : c1 ∉ xs := fun h => ha (by simp [h])
    have hb : (c1 == x) = false := by simpa using hx
    simp only [List.cons_append, firstPiece, List.isPrefixOf, hb, Bool.false_and,
      Bool.false_eq_true, if_false, List.append_eq]
    rw [ih hxs]

theorem splitAux_single_cons (c : Char) (b cur : List Char) :
    splitAux [c] (c :: b) 0 cur = cur :: splitAux [c] b 0 [] := by
  simp [splitAux, List.isPrefixOf]

/-- Re-joining the pieces of a split on a single character, each preceded by that
character, gives the character followed by the text that was split. -/
theorem foldl_splitAux_single (c : Char) (r cur t : List Char) :
    (splitAux [c] r 0 cur).foldl (fun text x => text ++ [c] ++ x) t = t ++ [c] ++ cur ++ r := by
  induction r generalizing cur t with
  | nil => simp [splitAux]
  | cons x xs ih =>
    simp only [splitAux, List.isPrefixOf, beq_iff_eq, Bool.and_true]
    split
    · next h =>
      subst h
      simp only [List.length_singleton, Nat.sub_self, List.foldl_cons]
      rw [ih]
      simp
    · rw [ih]; simp

theorem splitAux_single_length (c : Char) (r cur : List Char) :
    (splitAux [c] r 0 cur).length = r.count c + 1 := by
  induction r generalizing cur with
  | nil => simp [splitAux]
  | cons x xs ih =>
    simp only [splitAux, List.isPrefixOf, beq_iff_eq, Bool.and_true]
    split
    · next h =>
      subst h
      simp [ih]
    · next h =>
      rw [ih, List.count_cons_of_ne (fun e => h e)]

/-! ## Decoding an encoded envelope -/

theorem decodeFrame_shape (P M m : List Char) (hP : ' ' ∉ P) (hP2 : '&' ∉ P)
    (hM : ' ' ∉ M) (hM2 : '&' ∉ M) :
    decodeFrame (['&', '{'] ++ P ++ [' '] ++ M ++ [' '] ++ m ++ ['}']) =
      (Atoi P).bind (fun pid => (Atoi M).bind (fun mid =>
        some { Pid := pid, MsgId := mid, Msg := decodedMsg m })) := by
  have hassoc : ['&', '{'] ++ P ++ [' '] ++ M ++ [' '] ++ m ++ ['}'] =
      '&' :: '{' :: ((P ++ ' ' :: (M ++ [' '])) ++ (m ++ ['}'])) := by simp
  have hmem : '&' ∉ P ++ ' ' :: (M ++ [' ']) := by
    simp only [List.mem_append, List.mem_cons, List.mem_singleton, not_or]
    refine ⟨hP2, by decide, hM2, by decide, ?_⟩
    simp
  have h1 : (Split (['&', '{'] ++ P ++ [' '] ++ M ++ [' '] ++ m ++ ['}']) ['&', '{'])[1]? =
      some (P ++ ' ' :: (M ++ ' ' :: firstPiece ['&', '{'] (m ++ ['}']))) := by
    rw [hassoc]
    simp only [Split, splitAux, List.isPrefixOf, beq_self_eq_true, Bool.and_self, if_true,
      List.length_cons, List.length_nil]
    simp only [List.getElem?_cons_succ]
    rw [splitAux_head, firstPiece_append _ _ _ _ hmem]
    simp
  have h2 : Split (P ++ ' ' :: (M ++ ' ' :: firstPiece ['&', '{'] (m ++ ['}']))) [' '] =
      P :: M :: splitAux [' '] (firstPiece ['&', '{'] (m ++ ['}'])) 0 [] := by
    unfold Split
    rw [splitAux_append _ _ _ _ _ hP, splitAux_single_cons, splitAux_append _ _ _ _ _ hM,
      splitAux_single_cons]
    simp
  unfold decodeFrame
  simp only [h1, h2, Option.bind_eq_bind, Option.some_bind, List.getElem?_cons_zero,
    List.getElem?_cons_succ, List.drop_succ_cons, List.drop_zero, Option.pure_def]
  rw [foldl_splitAux_single]
  simp only [List.nil_append, List.singleton_append, List.length_cons, List.drop_succ_cons,
    List.drop_zero, Split_head]
  cases Atoi P with
  | none => rfl
  | some pid =>
    cases Atoi M with
    | none => rfl
    | some mid => simp [decodedMsg]

theorem decodeFrame_encode (e : Envelope) (hp : InInt64 e.Pid) (hm : InInt64 e.MsgId) :
    decodeFrame (encode e) = some { Pid := e.Pid, MsgId := e.MsgId, Msg := decodedMsg e.Msg } := by
  unfold encode
  rw [decodeFrame_shape _ _ _ (fun h => (Itoa_chars _ _ h).1 rfl) (fun h => (Itoa_chars _ _ h).2 rfl)
    (fun h => (Itoa_chars _ _ h).1 rfl) (fun h => (Itoa_chars _ _ h).2 rfl),
    Atoi_Itoa _ hp, Atoi_Itoa _ hm]
  rfl

theorem decodedMsg_nil : decodedMsg [] = [] := by decide

theorem firstPiece_amp_cons (c : Char) (t : List Char) :
    firstPiece ['&', '{'] (c :: t) =
      if c = '&' ∧ t.head? = some '{' then [] else c :: firstPiece ['&', '{'] t := by
  cases t with
  | nil => simp [firstPiece, List.isPrefixOf]
  | cons d ds =>
    simp only [firstPiece, List.isPrefixOf, Bool.and_true, Bool.and_eq_true, beq_iff_eq,
      List.head?_cons, Option.some.injEq]
    by_cases h : c = '&' ∧ d = '{'
    · simp [h.1, h.2]
    · have h2 : ¬ ('&' = c ∧ '{' = d) := fun hh => h ⟨hh.1.symm, hh.2.symm⟩
      simp [h, h2]

theorem firstPiece_brace_cons (c : Char) (t : List Char) :
    firstPiece ['}'] (c :: t) = if c = '}' then [] else c :: firstPiece ['}'] t := by
  simp only [firstPiece, List.isPrefixOf, Bool.and_true, beq_iff_eq]
  by_cases h : c = '}'
  · simp [h]
  · have h2 : ¬ '}' = c := fun e => h e.symm
    simp [h, h2]

theorem decodedMsg_cons (c : Char) (cs : List Char) :
    decodedMsg (c :: cs) =
      if c = '&' ∧ cs.head? = some '{' then []
      else if c = '}' then [] else c :: decodedMsg cs := by
  unfold decodedMsg
  have hhead : (cs ++ ['}']).head? = some '{' ↔ cs.head? = some '{' := by
    cases cs with
    | nil => simp
    | cons d ds => simp
  rw [List.cons_append, firstPiece_amp_cons]
  by_cases h : c = '&' ∧ cs.head? = some '{'
  · rw [if_pos ⟨h.1, hhead.2 h.2⟩, if_pos h]
    rfl
  · rw [if_neg (fun hh => h ⟨hh.1, hhead.1 hh.2⟩), if_neg h, firstPiece_brace_cons]

theorem decodedMsg_prefix (m : List Char) : decodedMsg m <+: m := by
  induction m with
  | nil => simp [decodedMsg_nil]
  | cons c cs ih =>
    rw [decodedMsg_cons]
    split
    · exact List.nil_prefix
    · split
      · exact List.nil_prefix
      · exact (List.prefix_cons_inj c).2 ih

theorem decodedMsg_eq_self_iff (m : List Char) :
    decodedMsg m = m ↔ '}' ∉ m ∧ ¬ ['&', '{'] <:+: m := by
  induction m with
  | nil => simp [decodedMsg_nil]
  | cons c cs ih =>
    rw [decodedMsg_cons]
    have hpre : ['&', '{'] <+: c :: cs ↔ (c = '&' ∧ cs.head? = some '{') := by
      cases cs with
      | nil => simp [List.prefix_cons_iff]
      | cons d ds => simp [List.cons_prefix_cons, eq_comm]
    rw [List.infix_cons_iff, hpre]
    by_cases h : c = '&' ∧ cs.head? = some '{'
    · simp [h]
    · simp only [h, if_false, false_or]
      by_cases h2 : c = '}'
      · simp [h2]
      · have : ¬ '}' = c := fun e => h2 e.symm
        simp [h2, this, ih]

theorem decodedMsg_eq_textBeforeToken (m : List Char) : decodedMsg m = textBeforeToken m := by
  induction m with
  | nil => simp [decodedMsg_nil, textBeforeToken]
  | cons c cs ih =>
    rw [decodedMsg_cons, textBeforeToken, ih]
    by_cases h1 : c = '&' ∧ cs.head? = some '{'
    · simp [h1]
    · by_cases h2 : c = '}'
      · simp [h2]
      · simp [h1, h2]

/-- The cut text is followed in the message by nothing, by `}` or by `&{`, and holds
no `}` itself. -/
theorem textBeforeToken_spec (m : List Char) :
    ∃ rest, m = textBeforeToken m ++ rest ∧ '}' ∉ textBeforeToken m ∧
      (rest = [] ∨ ['}'] <+: rest ∨ ['&', '{'] <+: rest) := by
  induction m with
  | nil => exact ⟨[], by simp [textBeforeToken]⟩
  | cons c cs ih =>
    unfold textBeforeToken
    by_cases h : c = '}' ∨ (c = '&' ∧ cs.head? = some '{')
    · rw [if_pos h]
      refine ⟨c :: cs, by simp, by simp, Or.inr ?_⟩
      rcases h with h | ⟨h1, h2⟩
      · left
        rw [h]
        exact ⟨cs, rfl⟩
      · right
        cases cs with
        | nil => simp at h2
        | cons d ds =>
          simp only [List.head?_cons, Option.some.injEq] at h2
          rw [h1, h2]
          exact ⟨ds, rfl⟩
    · rw [if_neg h]
      obtain ⟨rest, h1, h2, h3⟩ := ih
      refine ⟨rest, by rw [List.cons_append, ← h1], ?_, h3⟩
      simp only [List.mem_cons, not_or]
      exact ⟨fun e => h (Or.inl e.symm), h2⟩

theorem splitAux_length_two_iff (sep s cur : List Char) (hsep : sep ≠ []) :
    2 ≤ (splitAux sep s 0 cur).length ↔ sep <:+: s := by
  induction s generalizing cur with
  | nil =>
    simp only [splitAux, List.length_singleton, List.infix_nil]
    constructor
    · intro h; omega
    · intro h; exact absurd h hsep
  | cons c cs ih =>
    simp only [splitAux]
    by_cases hp : sep.isPrefixOf (c :: cs) = true
    · rw [if_pos hp]
      have hne := splitAux_ne_nil sep cs (sep.length - 1) []
      have hlen : 1 ≤ (splitAux sep cs (sep.length - 1) []).length :=
        List.length_pos.2 hne
      constructor
      · intro _; exact (List.isPrefixOf_iff_prefix.1 hp).isInfix
      · intro _; simp only [List.length_cons]; omega
    · rw [if_neg hp, ih, List.infix_cons_iff]
      constructor
      · intro h; exact Or.inr h
      · rintro (h | h)
        · exact absurd (List.isPrefixOf_iff_prefix.2 h) hp
        · exact h

theorem Split_second_none_iff (frame : List Char) :
    (Split frame ['&', '{'])[1]? = none ↔ ¬ ['&', '{'] <:+: frame := by
  rw [← splitAux_length_two_iff ['&', '{'] frame [] (by simp), List.getElem?_eq_none_iff]
  unfold Split
  omega

theorem foldl_join_length (l : List (List Char)) (t : List Char) :
    t.length + l.length ≤ (l.foldl (fun text x => text ++ [' '] ++ x) t).length := by
  induction l generalizing t with
  | nil => simp
  | cons x xs ih =>
    simp only [List.foldl_cons, List.length_cons]
    have := ih (t ++ [' '] ++ x)
    simp only [List.length_append, List.length_singleton] at this
    omega

/-- When the second piece of the frame exists, decoding fails exactly when that piece
has fewer than two spaces or one of its first two fields is not an integer. -/
theorem decodeFrame_none_of_seg (frame seg : List Char)
    (hseg : (Split frame ['&', '{'])[1]? = some seg) :
    decodeFrame frame = none ↔
      (seg.count ' ' < 2 ∨
        ∃ x, ((Split seg [' '])[0]? = some x ∨ (Split seg [' '])[1]? = some x) ∧ Atoi x = none) := by
  have hlen : (Split seg [' ']).length = seg.count ' ' + 1 := splitAux_single_length ' ' seg []
  unfold decodeFrame
  simp only [hseg, Option.bind_eq_bind, Option.some_bind, Option.pure_def]
  match hl : Split seg [' '] with
  | [] => rw [hl] at hlen; simp at hlen
  | [a] =>
    rw [hl] at hlen
    have hc : seg.count ' ' < 2 := by simp at hlen; omega
    simp only [List.getElem?_cons_zero, Option.some_bind, hc, true_or, iff_true]
    cases Atoi a <;> simp
  | [a, b] =>
    rw [hl] at hlen
    have hc : seg.count ' ' < 2 := by simp at hlen; omega
    simp only [List.getElem?_cons_zero, Option.some_bind, hc, true_or, iff_true]
    cases Atoi a <;> cases Atoi b <;> simp
  | a :: b :: c :: rest =>
    rw [hl] at hlen
    have hc : ¬ seg.count ' ' < 2 := by simp at hlen; omega
    have htext := foldl_join_length (c :: rest) []
    simp only [List.length_cons, List.length_nil] at htext
    have h1 : 1 ≤ ((c :: rest).foldl (fun text x => text ++ [' '] ++ x) []).length := by omega
    simp only [List.getElem?_cons_zero, List.getElem?_cons_succ, Option.some_bind, hc, false_or,
      List.drop_succ_cons, List.drop_zero, h1, if_true, Split_head]
    cases ha : Atoi a with
    | none => simpa using ⟨a, Or.inl rfl, ha⟩
    | some pa =>
      cases hb : Atoi b with
      | none => simpa using ⟨b, Or.inr rfl, hb⟩
      | some pb =>
        simp only [Option.some_bind, reduceCtorEq, false_iff, not_exists, not_and]
        rintro x (hx | hx)
        · simp only [Option.some.injEq] at hx; subst hx; simp [ha]
        · simp only [Option.some.injEq] at hx; subst hx; simp [hb]

theorem encode_getLast (e : Envelope) : (encode e).getLast? = some '}' := by
  unfold encode
  rw [List.getLast?_append]
  simp


/-! ## Lemmas on maps -/

theorem lookup_filter_ne {V : Type} (m : List (Int × V)) (k k1 : Int) (h : k1 ≠ k) :
    (m.filter (fun kv => kv.1 != k)).lookup k1 = m.lookup k1 := by
  induction m with
  | nil => rfl
  | cons kv rest ih =>
    obtain ⟨a, b⟩ := kv
    by_cases ha : a = k
    · subst ha
      have h1 : (k1 == a) = false := by simpa using h
      simp [List.filter_cons, List.lookup_cons, h1, ih]
    · have : (a != k) = true := by simpa using ha
      simp only [List.filter_cons, this, if_true, List.lookup_cons, ih]

theorem mapGet_mapSet_self {V : Type} (z : V) (m : List (Int × V)) (k : Int) (v : V) :
    mapGet z (mapSet m k v) k = v := by
  simp [mapGet, mapSet, List.lookup_cons]

theorem mapGet_mapSet_ne {V : Type} (z : V) (m : List (Int × V)) (k k1 : Int) (v : V)
    (h : k1 ≠ k) : mapGet z (mapSet m k v) k1 = mapGet z m k1 := by
  have h1 : (k1 == k) = false := by simpa using h
  simp [mapGet, mapSet, List.lookup_cons, h1, lookup_filter_ne m k k1 h]

/-! ## The invariant of the tables built by `ParseConfig` -/

theorem dupCheck_none (nodeid : Int) (address : List Char) (pa : List (Int × List Char))
    (ps : List Int) (h : dupCheck nodeid address pa ps = none) : nodeid ∉ ps := by
  induction ps with
  | nil => simp
  | cons p rest ih =>
    simp only [dupCheck] at h
    split at h
    · simp at h
    · next hp =>
      split at h
      · simp at h
      · simp only [List.mem_cons, not_or]
        exact ⟨fun e => hp e.symm, ih h⟩

theorem processLine_next (nline : List Char) (tb tb1 : Tables) (index index1 : Nat)
    (h : processLine nline tb index = LineResult.next tb1 index1) :
    (tb1 = tb ∧ index1 = index) ∨
    ∃ nodeid address, nodeid ∉ tb.Peers ∧ index1 = index + 1 ∧
      tb1 = { Peers := tb.Peers ++ [nodeid]
              peerIdIndex := mapSet tb.peerIdIndex nodeid index
              PeerAddress := mapSet tb.PeerAddress nodeid address } := by
  unfold processLine at h
  simp only at h
  split at h
  · simp at h
  · split at h
    · split at h
      · split at h
        · simp at h
        · split at h
          · simp at h
          · simp only [LineResult.next.injEq] at h
            exact Or.inr ⟨_, _, dupCheck_none _ _ _ _ (by assumption), h.2.symm, h.1.symm⟩
      · simp at h
    · simp only [LineResult.next.injEq] at h
      exact Or.inl ⟨h.1.symm, h.2.symm⟩

theorem TablesOk_step (tb : Tables) (nodeid : Int) (address : List Char)
    (hok : TablesOk tb) (hn : nodeid ∉ tb.Peers) :
    TablesOk { Peers := tb.Peers ++ [nodeid]
               peerIdIndex := mapSet tb.peerIdIndex nodeid tb.Peers.length
               PeerAddress := mapSet tb.PeerAddress nodeid address } := by
  obtain ⟨hnd, hidx⟩ := hok
  refine ⟨?_, ?_⟩
  · simp only
    rw [List.nodup_append]
    exact ⟨hnd, List.nodup_singleton _, by
      intro a ha hb
      simp only [List.mem_singleton] at hb
      subst hb
      exact hn ha⟩
  · intro p hp
    simp only [List.mem_append, List.mem_singleton] at hp
    simp only
    by_cases hpn : p = nodeid
    · subst hpn
      rw [mapGet_mapSet_self]
      simp
    · rcases hp with hp | hp
      · rw [mapGet_mapSet_ne _ _ _ _ _ hpn]
        have := hidx p hp
        have hlt : mapGet 0 tb.peerIdIndex p < tb.Peers.length := by
          by_contra hge
          rw [List.getElem?_eq_none (by omega)] at this
          simp at this
        rw [List.getElem?_append_left hlt]
        exact this
      · exact absurd hp hpn

theorem parseLines_inv (ls : List (List Char)) (tb : Tables) (index : Nat) (code : Int)
    (tb1 : Tables) (hok : TablesOk tb) (hi : index = tb.Peers.length)
    (h : parseLines ls tb index = some (code, tb1)) : TablesOk tb1 := by
  induction ls generalizing tb index with
  | nil =>
    simp only [parseLines, Option.some.injEq, Prod.mk.injEq] at h
    exact h.2 ▸ hok
  | cons nline more ih =>
    simp only [parseLines] at h
    split at h
    · simp at h
    · simp only [Option.some.injEq, Prod.mk.injEq] at h
      exact h.2 ▸ hok
    · next tb2 index2 hp =>
      rcases processLine_next _ _ _ _ _ hp with ⟨h1, h2⟩ | ⟨nodeid, address, hn, h2, h1⟩
      · exact ih tb2 index2 (h1 ▸ hok) (by rw [h1, h2]; exact hi) h
      · subst h1; subst hi
        refine ih _ index2 (TablesOk_step tb nodeid address hok hn) ?_ h
        simp [h2]

theorem TablesOk_empty : TablesOk Tables.empty := by
  refine ⟨List.nodup_nil, ?_⟩
  intro p hp
  simp [Tables.empty] at hp

theorem ParseConfig_inv (content : List Char) (code : Int) (tb : Tables)
    (h : ParseConfig content Tables.empty = some (code, tb)) : TablesOk tb :=
  parseLines_inv _ _ 0 code tb TablesOk_empty rfl h

theorem TablesOk_index (tb : Tables) (hok : TablesOk tb) (i : Nat) (hi : i < tb.Peers.length) :
    mapGet 0 tb.peerIdIndex (tb.Peers.get ⟨i, hi⟩) = i := by
  have h := hok.2 (tb.Peers.get ⟨i, hi⟩) (List.get_mem _ _ _)
  have hlt : mapGet 0 tb.peerIdIndex (tb.Peers.get ⟨i, hi⟩) < tb.Peers.length := by
    by_contra hge
    rw [List.getElem?_eq_none (by omega)] at h
    simp at h
  rw [List.getElem?_eq_getElem hlt, Option.some.injEq] at h
  have := (List.Nodup.get_inj_iff hok.1 (i := ⟨_, hlt⟩) (j := ⟨i, hi⟩)).1 (by simpa using h)
  simpa using this

/-! ## Lemmas on `wrap64` -/

theorem wrap64_of_InInt64 (x : Int) (h : InInt64 x) : wrap64 x = x := by
  unfold InInt64 at h
  unfold wrap64
  omega

theorem InInt64_wrap64 (x : Int) : InInt64 (wrap64 x) := by
  unfold InInt64 wrap64
  omega

theorem wrap64_succ (c : Int) (k : Nat) :
    wrap64 (wrap64 (c + (k : Int)) + 1) = wrap64 (c + ((k + 1 : Nat) : Int)) := by
  unfold wrap64
  push_cast
  omega

theorem wrap64_inj (c : Int) (i j : Nat) (hi : i < 2 ^ 64) (hj : j < 2 ^ 64)
    (h : wrap64 (c + (i : Int)) = wrap64 (c + (j : Int))) : i = j := by
  unfold wrap64 at h
  omega

/-! ## Lemmas on `NewCluster` -/

theorem connectNodes_bindNodes (tb : Tables) :
    connectNodes (bindNodes tb) = tb.Peers.map (nodeOf tb) := by
  simp [connectNodes, bindNodes, nodeOf, List.map_map, Function.comp_def]

theorem NewCluster_eq (content : List Char) (tb0 tb : Tables)
    (h : ParseConfig content tb0 = some (0, tb)) :
    NewCluster content tb0 = some (tb.Peers.map (nodeOf tb), tb) := by
  simp [NewCluster, h, connectNodes_bindNodes]

theorem NewCluster_some (content : List Char) (tb0 tb : Tables) (nodes : List servernode)
    (h : NewCluster content tb0 = some (nodes, tb)) :
    ParseConfig content tb0 = some (0, tb) ∧ nodes = tb.Peers.map (nodeOf tb) := by
  unfold NewCluster at h
  split at h
  · simp at h
  · next code tb1 hp =>
    split at h
    · simp at h
    · next hc =>
      simp only [ne_eq, Decidable.not_not] at hc
      simp only [Option.some.injEq, Prod.mk.injEq] at h
      subst hc
      rw [← h.2, ← h.1, connectNodes_bindNodes]
      exact ⟨hp, rfl⟩

theorem nodeOf_socket (tb : Tables) (hok : TablesOk tb) (q p : Int) (hp : p ∈ tb.Peers) :
    (nodeOf tb q).Peersockets[mapGet 0 tb.peerIdIndex p]? =
      some { endpoint := mapGet [] tb.PeerAddress p } := by
  simp only [nodeOf, List.getElem?_map, hok.2 p hp, Option.map_some']

/-! ## Lemmas on `SendMessages` -/

theorem broadcastLoop_eq (tb : Tables) (s : servernode) (msg : Envelope) (c : Int)
    (ps : List Int) (k : Nat) (run : SendRun)
    (hs : ∀ p ∈ ps, s.Peersockets[mapGet 0 tb.peerIdIndex p]? =
      some { endpoint := mapGet [] tb.PeerAddress p })
    (hc : run.MessageId = wrap64 (c + (k : Int))) (hp : run.panicked = false) :
    broadcastLoop tb s msg ps run =
      { MessageId := wrap64 (c + ((k + ps.length : Nat) : Int))
        sent := run.sent ++ (ps.enumFrom k).map (fanout tb msg c)
        panicked := false } := by
  induction ps generalizing k run with
  | nil =>
    obtain ⟨m, st, pk⟩ := run
    simp only at hc hp
    simp [broadcastLoop, hc, hp]
  | cons p rest ih =>
    have hsp := hs p (by simp)
    simp only [broadcastLoop, hsp]
    rw [ih (k + 1) _ (fun q hq => hs q (by simp [hq])) (by simp only [hc]; exact wrap64_succ c k) rfl]
    simp only [List.enumFrom_cons, List.map_cons, List.append_assoc, List.singleton_append,
      List.length_cons, fanout, hc]
    congr 2
    omega

theorem StampOk_push (c0 : Int) (run : SendRun) (t : Transmission) (h : StampOk c0 run)
    (hp : run.panicked = false) (ht : t.msg.MsgId = run.MessageId) :
    StampOk c0 { MessageId := wrap64 (run.MessageId + 1), sent := run.sent ++ [t],
                 panicked := false } := by
  obtain ⟨h1, h2⟩ := h
  have h3 := h2 hp
  refine ⟨?_, ?_⟩
  · simp only [stamped, List.map_append, List.map_cons, List.map_nil, List.length_append,
      List.length_singleton, List.range_succ]
    simp only [stamped] at h1
    rw [h1, ht, h3]
  · intro _
    simp only [List.length_append, List.length_singleton]
    rw [h3]
    exact wrap64_succ c0 run.sent.length

theorem StampOk_panic (c0 : Int) (run : SendRun) (m : Int) (h : StampOk c0 run) :
    StampOk c0 { MessageId := m, sent := run.sent, panicked := true } := by
  refine ⟨h.1, ?_⟩
  intro hp
  simp at hp

theorem StampOk_broadcastLoop (tb : Tables) (s : servernode) (msg : Envelope) (c0 : Int)
    (ps : List Int) (run : SendRun) (h : StampOk c0 run) (hp : run.panicked = false) :
    StampOk c0 (broadcastLoop tb s msg ps run) := by
  induction ps generalizing run with
  | nil => simpa [broadcastLoop] using h
  | cons p rest ih =>
    simp only [broadcastLoop]
    split
    · exact StampOk_panic c0 run _ h
    · exact ih _ (StampOk_push c0 run _ h hp rfl) rfl

theorem StampOk_sendOne (tb : Tables) (s : servernode) (msg : Envelope) (c0 : Int)
    (run : SendRun) (h : StampOk c0 run) (hp : run.panicked = false) :
    StampOk c0 (sendOne tb s msg run) := by
  unfold sendOne
  split
  · exact StampOk_broadcastLoop tb s msg c0 _ run h hp
  · simp only
    split
    · exact StampOk_panic c0 run _ h
    · exact StampOk_push c0 run _ h hp rfl

theorem StampOk_sendLoop (tb : Tables) (s : servernode) (outbox : List Envelope) (c0 : Int)
    (run : SendRun) (h : StampOk c0 run) (hp : run.panicked = false) :
    StampOk c0 (sendLoop tb s outbox run) := by
  induction outbox generalizing run with
  | nil => simpa [sendLoop] using h
  | cons msg more ih =>
    simp only [sendLoop]
    have h1 := StampOk_sendOne tb s msg c0 run h hp
    split
    · exact h1
    · next hnp => exact ih _ h1 (by simpa using hnp)

theorem stamped_SendMessages (tb : Tables) (s : servernode) (outbox : List Envelope)
    (hs : InInt64 s.MessageId) :
    stamped (SendMessages tb s outbox) =
      (List.range (SendMessages tb s outbox).sent.length).map
        (fun (i : Nat) => wrap64 (s.MessageId + (i : Int))) := by
  refine (StampOk_sendLoop tb s outbox s.MessageId _ ⟨?_, ?_⟩ rfl).1
  · simp [stamped]
  · intro _
    simp [wrap64_of_InInt64 _ hs]

/-! ## Well-formed configuration files -/

theorem readLines_line (t rest cur : List Char) (ht : Char.ofNat 10 ∉ t) :
    readLines (t ++ Char.ofNat 10 :: rest) cur =
      (cur ++ t ++ [Char.ofNat 10]) :: readLines rest [] := by
  induction t generalizing cur with
  | nil => simp [readLines]
  | cons x xs ih =>
    have hx : x ≠ Char.ofNat 10 := fun h => ht (by simp [h])
    have hxs : Char.ofNat 10 ∉ xs := fun h => ht (by simp [h])
    simp only [List.cons_append, readLines, hx, if_false, List.append_eq]
    rw [ih _ hxs]
    simp

theorem WellFormed_no_newline (l : ConfLine) (h : l.WellFormed) : Char.ofNat 10 ∉ l.text := by
  cases l with
  | comment t => exact h.2
  | blank => simp [ConfLine.text]
  | record n i a =>
    intro hm
    simp only [ConfLine.text, List.append_assoc, List.singleton_append, List.mem_append,
      List.mem_cons] at hm
    rcases hm with hm | hm | hm
    · exact (h.1 _ (List.mem_append_left _ hm)).2.2 rfl
    · exact absurd hm (by decide)
    · exact (h.1 _ (List.mem_append_right _ hm)).2.2 rfl

theorem readLines_renderFile (ls : List ConfLine) (rest : List Char)
    (h : ∀ l ∈ ls, l.WellFormed) :
    readLines (renderFile ls ++ rest) [] =
      ls.map (fun l => l.text ++ [Char.ofNat 10]) ++ readLines rest [] := by
  induction ls with
  | nil => simp [renderFile]
  | cons l more ih =>
    have hl := WellFormed_no_newline l (h l (by simp))
    simp only [renderFile, List.append_assoc, List.cons_append, List.map_cons]
    rw [readLines_line _ _ _ hl, ih (fun x hx => h x (by simp [hx]))]
    simp

theorem Contains_single (s : List Char) (c : Char) : Contains s [c] = true ↔ c ∈ s := by
  induction s with
  | nil => simp [Contains, List.isPrefixOf]
  | cons x xs ih =>
    simp only [Contains, List.tails, List.any_cons, List.isPrefixOf, Bool.and_true,
      Bool.or_eq_true, beq_iff_eq, List.mem_cons] at ih ⊢
    rw [ih]

theorem Split_line (t : List Char) (ht : Char.ofNat 10 ∉ t) :
    (Split (t ++ [Char.ofNat 10]) [Char.ofNat 10])[0]? = some t := by
  rw [Split_head, firstPiece_append _ _ _ _ ht]
  simp [firstPiece, List.isPrefixOf]

theorem processLine_comment (t : List Char) (tb : Tables) (index : Nat)
    (h : (ConfLine.comment t).WellFormed) :
    processLine (t ++ [Char.ofNat 10]) tb index = LineResult.next tb index := by
  have hc : Contains (t ++ [Char.ofNat 10]) ['#'] = true :=
    (Contains_single _ _).2 (List.mem_append_left _ h.1)
  unfold processLine
  simp only [Split_line t h.2, hc]
  simp

theorem processLine_blank (tb : Tables) (index : Nat) :
    processLine [Char.ofNat 10] tb index = LineResult.next tb index := by
  have := Split_line [] (by simp)
  simp only [List.nil_append] at this
  unfold processLine
  simp only [this]
  simp

theorem processLine_record (n : Int) (i a : List Char) (tb : Tables) (index : Nat)
    (h : (ConfLine.record n i a).WellFormed) :
    processLine ((ConfLine.record n i a).text ++ [Char.ofNat 10]) tb index =
      match dupCheck n (TrimSpace a) tb.PeerAddress tb.Peers with
      | some code => LineResult.ret code
      | none =>
        LineResult.next
          { Peers := tb.Peers ++ [n]
            peerIdIndex := mapSet tb.peerIdIndex n index
            PeerAddress := mapSet tb.PeerAddress n (TrimSpace a) }
          (index + 1) := by
  have hnl := WellFormed_no_newline _ h
  obtain ⟨hch, hid⟩ := h
  have hi : ',' ∉ i := fun hm => (hch _ (List.mem_append_left _ hm)).2.1 rfl
  have ha : ',' ∉ a := fun hm => (hch _ (List.mem_append_right _ hm)).2.1 rfl
  have hc : Contains ((ConfLine.record n i a).text ++ [Char.ofNat 10]) ['#'] = false := by
    rw [Bool.eq_false_iff, Ne, Contains_single]
    intro hm
    have h1 : ('#' : Char) ≠ ',' := by decide
    have h2 : ('#' : Char) ≠ Char.ofNat 10 := by decide
    simp only [ConfLine.text, List.append_assoc, List.singleton_append, List.mem_append,
      List.mem_cons, List.mem_singleton, h1, h2, false_or, or_false] at hm
    rcases hm with hm | hm | hm
    · exact (hch _ (List.mem_append_left _ hm)).1 rfl
    · exact (hch _ (List.mem_append_right _ hm)).1 rfl
    · simp at hm
  have hne : (ConfLine.record n i a).text ≠ [] := by simp [ConfLine.text]
  have hsplit : Split (ConfLine.record n i a).text [','] = [i, a] := by
    unfold Split
    simp only [ConfLine.text, List.append_assoc, List.singleton_append]
    rw [splitAux_append _ _ _ _ _ hi, splitAux_single_cons]
    have := splitAux_append ',' [] a [] [] ha
    simp only [List.append_nil, List.nil_append] at this
    rw [this]
    simp [splitAux]
  unfold processLine
  simp only [Split_line _ hnl, hc, hsplit]
  simp only [Bool.not_false, Bool.true_and, decide_eq_true_eq, hne, not_false_eq_true, if_true,
    ne_eq, List.getElem?_cons_zero, List.getElem?_cons_succ]
  rw [hid]

theorem dupCheck_fresh (n : Int) (a : List Char) (pa : List (Int × List Char)) (ps : List Int)
    (hn : n ∉ ps) (ha : ∀ kv ∈ pa, kv.2 ≠ a) : dupCheck n a pa ps = none := by
  have hany : pa.any (fun kv => decide (kv.2 = a)) = false := by
    rw [List.any_eq_false]
    intro kv hkv
    simpa using ha kv hkv
  induction ps with
  | nil => rfl
  | cons p rest ih =>
    have hp : p ≠ n := fun e => hn (by simp [e])
    simp only [dupCheck, hp, if_false, hany, Bool.false_eq_true]
    exact ih (fun h => hn (by simp [h]))

theorem dupCheck_dup_id (n : Int) (a : List Char) (pa : List (Int × List Char)) (ps : List Int)
    (hn : n ∈ ps) (ha : ∀ kv ∈ pa, kv.2 ≠ a) : dupCheck n a pa ps = some 1 := by
  have hany : pa.any (fun kv => decide (kv.2 = a)) = false := by
    rw [List.any_eq_false]
    intro kv hkv
    simpa using ha kv hkv
  induction ps with
  | nil => simp at hn
  | cons p rest ih =>
    simp only [dupCheck]
    by_cases hp : p = n
    · simp [hp]
    · simp only [hp, if_false, hany, Bool.false_eq_true]
      rcases List.mem_cons.1 hn with h | h
      · exact absurd h.symm hp
      · exact ih h

theorem dupCheck_dup_address (n : Int) (a : List Char) (pa : List (Int × List Char))
    (ps : List Int) (hn : n ∉ ps) (hps : ps ≠ []) (ha : ∃ kv ∈ pa, kv.2 = a) :
    dupCheck n a pa ps = some 2 := by
  have hany : pa.any (fun kv => decide (kv.2 = a)) = true := by
    rw [List.any_eq_true]
    obtain ⟨kv, hkv, e⟩ := ha
    exact ⟨kv, hkv, by simpa using e⟩
  cases ps with
  | nil => exact absurd rfl hps
  | cons p rest =>
    have hp : p ≠ n := fun e => hn (by simp [e])
    simp [dupCheck, hp, hany]

theorem addPeer_fresh (tb : Tables) (r : Int × List Char) (recs : List (Int × List Char))
    (hk : KeysOk tb) (h : Fresh tb (r :: recs)) :
    (addPeer tb r).PeerAddress = r :: tb.PeerAddress ∧ KeysOk (addPeer tb r) ∧
      Fresh (addPeer tb r) recs := by
  obtain ⟨h1, h2, h3⟩ := h
  have hr := h3 r (by simp)
  have hfilter : tb.PeerAddress.filter (fun kv => kv.1 != r.1) = tb.PeerAddress := by
    rw [List.filter_eq_self]
    intro kv hkv
    have : kv.1 ≠ r.1 := fun e => hr.1 (e ▸ hk kv hkv)
    simpa using this
  have hpa : (addPeer tb r).PeerAddress = r :: tb.PeerAddress := by
    simp [addPeer, mapSet, hfilter]
  simp only [List.map_cons, List.nodup_cons] at h1 h2
  refine ⟨hpa, ?_, h1.2, h2.2, ?_⟩
  · intro kv hkv
    rw [hpa] at hkv
    simp only [addPeer, List.mem_append, List.mem_singleton]
    rcases List.mem_cons.1 hkv with e | hm
    · exact Or.inr (by rw [e])
    · exact Or.inl (hk kv hm)
  · intro q hq
    have hq3 := h3 q (by simp [hq])
    refine ⟨?_, ?_⟩
    · simp only [addPeer, List.mem_append, List.mem_singleton, not_or]
      refine ⟨hq3.1, fun e => h1.1 ?_⟩
      rw [← e]
      exact List.mem_map_of_mem _ hq
    · intro kv hkv
      rw [hpa] at hkv
      rcases List.mem_cons.1 hkv with e | hm
      · intro e2
        apply h2.1
        rw [← e, e2]
        exact List.mem_map_of_mem _ hq
      · exact hq3.2 kv hm

theorem parseLines_wellFormed (ls : List ConfLine) (more : List (List Char)) (tb : Tables)
    (hwf : ∀ l ∈ ls, l.WellFormed) (hk : KeysOk tb) (hf : Fresh tb (records ls)) :
    parseLines (ls.map (fun l => l.text ++ [Char.ofNat 10]) ++ more) tb tb.Peers.length =
      parseLines more ((records ls).foldl addPeer tb)
        ((records ls).foldl addPeer tb).Peers.length := by
  induction ls generalizing tb with
  | nil => simp [records]
  | cons l rest ih =>
    have hl := hwf l (by simp)
    have hrest : ∀ x ∈ rest, x.WellFormed := fun x hx => hwf x (by simp [hx])
    cases l with
    | comment t =>
      simp only [List.map_cons, List.cons_append, parseLines, List.append_eq, records]
      rw [show (ConfLine.comment t).text = t from rfl, processLine_comment t tb _ hl]
      exact ih tb hrest hk hf
    | blank =>
      simp only [List.map_cons, List.cons_append, parseLines, List.append_eq, records]
      rw [show ConfLine.blank.text ++ [Char.ofNat 10] = [Char.ofNat 10] from rfl,
        processLine_blank]
      exact ih tb hrest hk hf
    | record n i a =>
      simp only [records] at hf
      have hr := hf.2.2 (n, TrimSpace a) (by simp)
      obtain ⟨hpa, hk1, hf1⟩ := addPeer_fresh tb (n, TrimSpace a) _ hk hf
      simp only [List.map_cons, List.cons_append, parseLines, List.append_eq, records,
        List.foldl_cons]
      rw [processLine_record n i a tb _ hl,
        dupCheck_fresh n (TrimSpace a) tb.PeerAddress tb.Peers hr.1 hr.2]
      have := ih (addPeer tb (n, TrimSpace a)) hrest hk1 hf1
      simp only [addPeer, List.length_append, List.length_singleton] at this ⊢
      exact this

theorem foldl_addPeer_tables (recs : List (Int × List Char)) (tb : Tables) (hk : KeysOk tb)
    (hf : Fresh tb recs) :
    (recs.foldl addPeer tb).Peers = tb.Peers ++ recs.map Prod.fst ∧
      (recs.foldl addPeer tb).PeerAddress = recs.reverse ++ tb.PeerAddress := by
  induction recs generalizing tb with
  | nil => simp
  | cons r rest ih =>
    obtain ⟨hpa, hk1, hf1⟩ := addPeer_fresh tb r rest hk hf
    obtain ⟨h1, h2⟩ := ih (addPeer tb r) hk1 hf1
    simp only [List.foldl_cons, h1, h2, hpa]
    simp [addPeer]

theorem lookup_of_mem_nodup {V : Type} (l : List (Int × V)) (k : Int) (v : V)
    (hnd : (l.map Prod.fst).Nodup) (hm : (k, v) ∈ l) : l.lookup k = some v := by
  induction l with
  | nil => simp at hm
  | cons kv rest ih =>
    obtain ⟨a, b⟩ := kv
    simp only [List.map_cons, List.nodup_cons] at hnd
    rcases List.mem_cons.1 hm with e | hmem
    · simp only [Prod.mk.injEq] at e
      simp [List.lookup_cons, e.1, e.2]
    · have hne : k ≠ a := by
        intro e
        apply hnd.1
        rw [← e]
        exact List.mem_map_of_mem Prod.fst hmem
      have : (k == a) = false := by simpa using hne
      simp only [List.lookup_cons, this]
      exact ih hnd.2 hmem

theorem Fresh_empty (recs : List (Int × List Char)) (h1 : (recs.map Prod.fst).Nodup)
    (h2 : (recs.map Prod.snd).Nodup) : Fresh Tables.empty recs :=
  ⟨h1, h2, fun _ _ => ⟨by simp [Tables.empty], by simp [Tables.empty]⟩⟩

theorem KeysOk_empty : KeysOk Tables.empty := by
  intro kv hkv
  simp [Tables.empty] at hkv

/-- Parsing a well-formed file from empty tables: the lines consumed, the tables are
those of its records, whatever follows. -/
theorem ParseConfig_wellFormed (ls : List ConfLine) (rest : List Char)
    (hwf : ∀ l ∈ ls, l.WellFormed) (h1 : ((records ls).map Prod.fst).Nodup)
    (h2 : ((records ls).map Prod.snd).Nodup) :
    ParseConfig (renderFile ls ++ rest) Tables.empty =
      parseLines (readLines rest []) ((records ls).foldl addPeer Tables.empty)
        ((records ls).foldl addPeer Tables.empty).Peers.length := by
  unfold ParseConfig
  rw [readLines_renderFile ls rest hwf]
  exact parseLines_wellFormed ls _ Tables.empty hwf KeysOk_empty (Fresh_empty _ h1 h2)

/-! ## The wire format: claims C1, C9, C10 -/

/-- C10: for every envelope whose ids fit their integer types and whose text contains
neither the character `}` nor the sequence `&{`, decoding the frame that is put on the
wire for it yields exactly that envelope, and `ReceiveMessages` queues it. -/
theorem decode_encode_plain (e : Envelope) (hp : InInt64 e.Pid) (hm : InInt64 e.MsgId)
    (h1 : '}' ∉ e.Msg) (h2 : ¬ ['&', '{'] <:+: e.Msg) :
    decodeFrame (encode e) = some e ∧
      ∀ inbox, ReceiveMessages inbox (encode e) = some (inbox ++ [e]) := by
  have h : decodeFrame (encode e) = some e := by
    rw [decodeFrame_encode e hp hm, (decodedMsg_eq_self_iff e.Msg).2 ⟨h1, h2⟩]
  exact ⟨h, fun inbox => by simp [ReceiveMessages, QueueInbox, h]⟩

/-- Witness of C10: a negative id and a text with leading, repeated and trailing
spaces. -/
theorem decode_encode_plain_witness :
    decodeFrame (encode ⟨-2, 1000, [' ', 'a', ' ', ' ', 'b', ' ']⟩) =
        some ⟨-2, 1000, [' ', 'a', ' ', ' ', 'b', ' ']⟩ ∧
      ∀ inbox, ReceiveMessages inbox (encode ⟨-2, 1000, [' ', 'a', ' ', ' ', 'b', ' ']⟩) =
        some (inbox ++ [⟨-2, 1000, [' ', 'a', ' ', ' ', 'b', ' ']⟩]) :=
  decode_encode_plain ⟨-2, 1000, [' ', 'a', ' ', ' ', 'b', ' ']⟩ (by decide) (by decide)
    (by decide) (by decide)

/-- C1, counterexample: the envelope with text `a}b` comes back with text `a`. -/
theorem decode_encode_brace_counterexample :
    decodeFrame (encode ⟨1, 2, ['a', '}', 'b']⟩) = some ⟨1, 2, ['a']⟩ ∧
      decodeFrame (encode ⟨1, 2, ['a', '}', 'b']⟩) ≠ some ⟨1, 2, ['a', '}', 'b']⟩ := by
  decide

/-- C1, amended: decoding the frame of any envelope (ids within their integer types)
succeeds and gives back the same `Pid` and `MsgId`, with as `Msg` exactly the text
before the first `}` or `&{` of the submitted text: a prefix of it without `}`, followed
in the submitted text by nothing, by `}` or by `&{`.  The result is the envelope itself
if and only if the text contains neither `}` nor `&{`. -/
theorem decode_encode_iff (e : Envelope) (hp : InInt64 e.Pid) (hm : InInt64 e.MsgId) :
    decodeFrame (encode e) =
        some { Pid := e.Pid, MsgId := e.MsgId, Msg := textBeforeToken e.Msg } ∧
      (∃ rest, e.Msg = textBeforeToken e.Msg ++ rest ∧ '}' ∉ textBeforeToken e.Msg ∧
        (rest = [] ∨ ['}'] <+: rest ∨ ['&', '{'] <+: rest)) ∧
      (decodeFrame (encode e) = some e ↔ ('}' ∉ e.Msg ∧ ¬ ['&', '{'] <:+: e.Msg)) := by
  refine ⟨by rw [decodeFrame_encode e hp hm, decodedMsg_eq_textBeforeToken],
    textBeforeToken_spec e.Msg, ?_⟩
  rw [decodeFrame_encode e hp hm, ← decodedMsg_eq_self_iff]
  obtain ⟨p, i, m⟩ := e
  simp

/-- Witness of the amended C1, at the envelope with text `ab}cd`, which comes back
with text `ab`. -/
theorem decode_encode_iff_witness :
    decodeFrame (encode ⟨-3, 7, ['a', 'b', '}', 'c', 'd']⟩) = some ⟨-3, 7, ['a', 'b']⟩ ∧
      textBeforeToken ['a', 'b', '}', 'c', 'd'] = ['a', 'b'] ∧
      textBeforeToken ['x', '&', '{', 'y'] = ['x'] ∧
      (decodeFrame (encode ⟨-3, 7, ['a', 'b', '}', 'c', 'd']⟩) =
          some ⟨-3, 7, ['a', 'b', '}', 'c', 'd']⟩ ↔
        ('}' ∉ ['a', 'b', '}', 'c', 'd'] ∧ ¬ ['&', '{'] <:+: ['a', 'b', '}', 'c', 'd'])) :=
  ⟨(decode_encode_iff ⟨-3, 7, ['a', 'b', '}', 'c', 'd']⟩ (by decide) (by decide)).1,
    by decide, by decide,
    (decode_encode_iff ⟨-3, 7, ['a', 'b', '}', 'c', 'd']⟩ (by decide) (by decide)).2.2⟩

/-- C9, counterexample: the frame `&{1 2 abc}x` is the encoding of no envelope, yet it
is decoded and an envelope is queued. -/
theorem receive_malformed_counterexample :
    (∀ e, encode e ≠ ['&', '{', '1', ' ', '2', ' ', 'a', 'b', 'c', '}', 'x']) ∧
      ReceiveMessages [] ['&', '{', '1', ' ', '2', ' ', 'a', 'b', 'c', '}', 'x'] =
        some [⟨1, 2, ['a', 'b', 'c']⟩] := by
  refine ⟨?_, by decide⟩
  intro e h
  have := encode_getLast e
  rw [h] at this
  revert this
  decide

/-- C9, amended: the iteration of `ReceiveMessages` panics, queueing nothing, exactly
when the frame holds no `&{`, or the text between its first `&{` and the next one (or
the end) has fewer than two spaces, hence fewer than three fields, or the first or the
second of these fields is not a decimal integer within `int`; every other frame is
decoded and its envelope is queued. -/
theorem receive_fails_iff (inbox : List Envelope) (frame : List Char) :
    (ReceiveMessages inbox frame = none ↔
      (¬ ['&', '{'] <:+: frame ∨
        ∃ seg, (Split frame ['&', '{'])[1]? = some seg ∧
          (seg.count ' ' < 2 ∨
            ∃ x, ((Split seg [' '])[0]? = some x ∨ (Split seg [' '])[1]? = some x) ∧
              Atoi x = none))) ∧
      (ReceiveMessages inbox frame ≠ none →
        ∃ e, decodeFrame frame = some e ∧ ReceiveMessages inbox frame = some (inbox ++ [e])) := by
  constructor
  · have hR : ReceiveMessages inbox frame = none ↔ decodeFrame frame = none := by
      unfold ReceiveMessages
      cases decodeFrame frame <;> simp
    rw [hR]
    cases hseg : (Split frame ['&', '{'])[1]? with
    | none =>
      have hd : decodeFrame frame = none := by
        unfold decodeFrame
        simp [hseg]
      simp only [hd, true_iff]
      exact Or.inl ((Split_second_none_iff frame).1 hseg)
    | some seg =>
      have hin : ['&', '{'] <:+: frame := by
        by_contra hcon
        rw [(Split_second_none_iff frame).2 hcon] at hseg
        simp at hseg
      rw [decodeFrame_none_of_seg frame seg hseg]
      constructor
      · intro h
        exact Or.inr ⟨seg, rfl, h⟩
      · rintro (h | ⟨seg1, h1, h2⟩)
        · exact absurd hin h
        · simp only [Option.some.injEq] at h1
          subst h1
          exact h2
  · intro h
    unfold ReceiveMessages at h ⊢
    cases hd : decodeFrame frame with
    | none => simp [hd] at h
    | some e => exact ⟨e, rfl, rfl⟩

/-! ## The mesh and the dispatcher: claims C2, C3, C4, C5, C8 -/

theorem NewCluster_conf3 :
    NewCluster conf3 Tables.empty =
      some ([node3 1 ['a'], node3 2 ['b'], node3 3 ['c']], tables3) := by
  decide

/-- C8: when `ParseConfig` from empty tables returns 0 with a peer list of `N` ids,
`NewCluster` returns `N` nodes; the `i`-th has `ServerId = Peers[i]`, its inbound socket
bound to its own address, `PeersId` equal to the peer list and `N` outbound sockets, and
for every peer id `p` the socket at index `peerIdIndex[p]` is connected to
`PeerAddress[p]`. -/
theorem NewCluster_mesh (content : List Char) (tb : Tables)
    (h : ParseConfig content Tables.empty = some (0, tb)) :
    ∃ nodes, NewCluster content Tables.empty = some (nodes, tb) ∧
      nodes.length = tb.Peers.length ∧
      ∀ i (hi : i < tb.Peers.length), ∃ s, nodes[i]? = some s ∧
        s.ServerId = tb.Peers[i] ∧
        s.ServerAddress = mapGet [] tb.PeerAddress tb.Peers[i] ∧
        s.Serversocket = { endpoint := mapGet [] tb.PeerAddress tb.Peers[i] } ∧
        s.PeersId = tb.Peers ∧
        s.Peersockets.length = tb.Peers.length ∧
        ∀ p ∈ tb.Peers, s.Peersockets[mapGet 0 tb.peerIdIndex p]? =
          some { endpoint := mapGet [] tb.PeerAddress p } := by
  have hok := ParseConfig_inv content 0 tb h
  refine ⟨_, NewCluster_eq content Tables.empty tb h, by simp, ?_⟩
  intro i hi
  refine ⟨nodeOf tb tb.Peers[i], by simp [List.getElem?_eq_getElem hi], rfl, rfl, rfl, rfl,
    by simp [nodeOf], ?_⟩
  intro p hp
  exact nodeOf_socket tb hok _ p hp

/-- Witness of C8 on the three-node file `conf3`. -/
theorem NewCluster_mesh_witness :
    ∃ nodes, NewCluster conf3 Tables.empty = some (nodes, tables3) ∧
      nodes.length = tables3.Peers.length ∧
      ∀ i (hi : i < tables3.Peers.length), ∃ s, nodes[i]? = some s ∧
        s.ServerId = tables3.Peers[i] ∧
        s.ServerAddress = mapGet [] tables3.PeerAddress tables3.Peers[i] ∧
        s.Serversocket = { endpoint := mapGet [] tables3.PeerAddress tables3.Peers[i] } ∧
        s.PeersId = tables3.Peers ∧
        s.Peersockets.length = tables3.Peers.length ∧
        ∀ p ∈ tables3.Peers, s.Peersockets[mapGet 0 tables3.peerIdIndex p]? =
          some { endpoint := mapGet [] tables3.PeerAddress p } :=
  NewCluster_mesh conf3 tables3 (by decide)

/-- C3: for an envelope whose `Pid` is a peer id of the table and not `BROADCAST`,
`SendMessages` makes exactly one transmission, on the socket at index
`peerIdIndex[Pid]`, which is the one connected to that peer's address; the envelope
sent has the same `Pid` and `Msg`, and the node's counter value as `MsgId`. -/
theorem unicast_send (content : List Char) (nodes : List servernode) (tb : Tables)
    (s : servernode) (msg : Envelope) (c : Int)
    (hc : NewCluster content Tables.empty = some (nodes, tb)) (hs : s ∈ nodes)
    (hp : msg.Pid ∈ tb.Peers) (hb : msg.Pid ≠ BROADCAST) :
    sendOne tb s msg { MessageId := c, sent := [], panicked := false } =
        { MessageId := wrap64 (c + 1)
          sent := [{ index := mapGet 0 tb.peerIdIndex msg.Pid
                     socket := { endpoint := mapGet [] tb.PeerAddress msg.Pid }
                     msg := { Pid := msg.Pid, MsgId := c, Msg := msg.Msg } }]
          panicked := false } ∧
      s.Peersockets[mapGet 0 tb.peerIdIndex msg.Pid]? =
        some { endpoint := mapGet [] tb.PeerAddress msg.Pid } ∧
      tb.Peers[mapGet 0 tb.peerIdIndex msg.Pid]? = some msg.Pid := by
  obtain ⟨hpc, hn⟩ := NewCluster_some content Tables.empty tb nodes hc
  have hok := ParseConfig_inv content 0 tb hpc
  subst hn
  obtain ⟨q, _, rfl⟩ := List.mem_map.1 hs
  have hsock := nodeOf_socket tb hok q msg.Pid hp
  refine ⟨?_, hsock, hok.2 _ hp⟩
  unfold sendOne
  simp only [hb, if_false, hsock, List.nil_append]

/-- Witness of C3: node 1 of `conf3` sends to peer 2. -/
theorem unicast_send_witness :
    sendOne tables3 (node3 1 ['a']) ⟨2, 0, ['h', 'i']⟩
        { MessageId := 1000, sent := [], panicked := false } =
        { MessageId := wrap64 (1000 + 1)
          sent := [{ index := mapGet 0 tables3.peerIdIndex 2
                     socket := { endpoint := mapGet [] tables3.PeerAddress 2 }
                     msg := { Pid := 2, MsgId := 1000, Msg := ['h', 'i'] } }]
          panicked := false } ∧
      (node3 1 ['a']).Peersockets[mapGet 0 tables3.peerIdIndex 2]? =
        some { endpoint := mapGet [] tables3.PeerAddress 2 } ∧
      tables3.Peers[mapGet 0 tables3.peerIdIndex 2]? = some 2 :=
  unicast_send conf3 _ tables3 (node3 1 ['a']) ⟨2, 0, ['h', 'i']⟩ 1000 NewCluster_conf3
    (by decide) (by decide) (by decide)

/-- C4, the code at the failing input: in the cluster of `conf3` (ids 1, 2, 3) an
envelope addressed to the unknown id 99 is transmitted by every node on its socket 0,
the one connected to the address `a` of node 1. -/
theorem unicast_unknown_id :
    NewCluster conf3 Tables.empty =
        some ([node3 1 ['a'], node3 2 ['b'], node3 3 ['c']], tables3) ∧
      (99 : Int) ∉ tables3.Peers ∧
      (SendMessages tables3 (node3 2 ['b']) [⟨99, 0, ['x']⟩]).sent =
        [{ index := 0, socket := { endpoint := ['a'] }, msg := ⟨99, 2000, ['x']⟩ }] ∧
      (node3 1 ['a']).Serversocket = { endpoint := ['a'] } := by
  decide

/-- C2: for an envelope whose `Pid` is `BROADCAST`, with a peer list of `N` ids (fewer
than `2 ^ 63`, the length of a Go slice being an `int`), `SendMessages` makes exactly `N`
transmissions and does not panic; the `i`-th goes out on the socket of index `i`, which
is the one connected to the address of `Peers[i]`, and carries `Pid = Peers[i]`, the
submitted `Msg` and the counter value `c + i` (wrapped to `int64`) as `MsgId`; these
ids are pairwise different, and no transmitted `Pid` is `BROADCAST` unless a peer id
is. -/
theorem broadcast_fanout (content : List Char) (nodes : List servernode) (tb : Tables)
    (s : servernode) (msg : Envelope) (c : Int)
    (hc : NewCluster content Tables.empty = some (nodes, tb)) (hs : s ∈ nodes)
    (hb : msg.Pid = BROADCAST) (hcr : InInt64 c) (hlen : tb.Peers.length < 2 ^ 63) :
    (sendOne tb s msg { MessageId := c, sent := [], panicked := false }).panicked = false ∧
      (sendOne tb s msg { MessageId := c, sent := [], panicked := false }).sent.length =
        tb.Peers.length ∧
      (∀ i (hi : i < tb.Peers.length),
        (sendOne tb s msg { MessageId := c, sent := [], panicked := false }).sent[i]? =
            some { index := i
                   socket := { endpoint := mapGet [] tb.PeerAddress tb.Peers[i] }
                   msg := { Pid := tb.Peers[i], MsgId := wrap64 (c + (i : Int)),
                            Msg := msg.Msg } } ∧
          s.Peersockets[i]? = some { endpoint := mapGet [] tb.PeerAddress tb.Peers[i] }) ∧
      (stamped (sendOne tb s msg { MessageId := c, sent := [], panicked := false })).Nodup ∧
      (BROADCAST ∉ tb.Peers →
        ∀ t ∈ (sendOne tb s msg { MessageId := c, sent := [], panicked := false }).sent,
          t.msg.Pid ≠ BROADCAST) := by
  obtain ⟨hpc, hn⟩ := NewCluster_some content Tables.empty tb nodes hc
  have hok := ParseConfig_inv content 0 tb hpc
  subst hn
  obtain ⟨q, _, rfl⟩ := List.mem_map.1 hs
  have hrun : sendOne tb (nodeOf tb q) msg { MessageId := c, sent := [], panicked := false } =
      { MessageId := wrap64 (c + ((0 + tb.Peers.length : Nat) : Int))
        sent := [] ++ (tb.Peers.enumFrom 0).map (fanout tb msg c)
        panicked := false } := by
    unfold sendOne
    rw [if_pos hb]
    exact broadcastLoop_eq tb (nodeOf tb q) msg c tb.Peers 0 _
      (fun p hp => nodeOf_socket tb hok q p hp) (by simp [wrap64_of_InInt64 c hcr]) rfl
  rw [hrun]
  simp only [List.nil_append]
  refine ⟨trivial, by simp, ?_, ?_, ?_⟩
  · intro i hi
    constructor
    · simp only [List.getElem?_map, List.getElem?_enumFrom, List.getElem?_eq_getElem hi,
        Option.map_some', fanout, Nat.zero_add]
      have := TablesOk_index tb hok i hi
      simp only [List.get_eq_getElem] at this
      rw [this]
    · simp [nodeOf, List.getElem?_eq_getElem hi]
  · have hst : stamped { MessageId := wrap64 (c + ((0 + tb.Peers.length : Nat) : Int))
                         sent := (tb.Peers.enumFrom 0).map (fanout tb msg c)
                         panicked := false } =
        (List.range' 0 tb.Peers.length).map (fun (i : Nat) => wrap64 (c + (i : Int))) := by
      simp only [stamped, List.map_map, ← List.enumFrom_map_fst 0 tb.Peers]
      rfl
    rw [hst]
    refine List.Nodup.map_on ?_ (List.nodup_range' 0 tb.Peers.length)
    intro i hi j hj hij
    simp only [List.mem_range'_1, Nat.zero_add] at hi hj
    have h63 : (2 : Nat) ^ 63 < 2 ^ 64 := by norm_num
    exact wrap64_inj c i j (by omega) (by omega) hij
  · intro hnb t ht
    simp only [List.mem_map] at ht
    obtain ⟨⟨i, p⟩, hip, rfl⟩ := ht
    have hp : p ∈ tb.Peers := by
      have := List.mem_map_of_mem Prod.snd hip
      rwa [List.enumFrom_map_snd] at this
    simp only [fanout]
    exact fun e => hnb (e ▸ hp)

/-- Witness of C2: node 2 of `conf3` broadcasts with its counter at 2000. -/
theorem broadcast_fanout_witness :
    (sendOne tables3 (node3 2 ['b']) ⟨BROADCAST, 0, ['h', 'i']⟩
        { MessageId := 2000, sent := [], panicked := false }).panicked = false ∧
      (sendOne tables3 (node3 2 ['b']) ⟨BROADCAST, 0, ['h', 'i']⟩
        { MessageId := 2000, sent := [], panicked := false }).sent.length =
        tables3.Peers.length ∧
      (∀ i (hi : i < tables3.Peers.length),
        (sendOne tables3 (node3 2 ['b']) ⟨BROADCAST, 0, ['h', 'i']⟩
            { MessageId := 2000, sent := [], panicked := false }).sent[i]? =
            some { index := i
                   socket := { endpoint := mapGet [] tables3.PeerAddress tables3.Peers[i] }
                   msg := { Pid := tables3.Peers[i], MsgId := wrap64 (2000 + (i : Int)),
                            Msg := ['h', 'i'] } } ∧
          (node3 2 ['b']).Peersockets[i]? =
            some { endpoint := mapGet [] tables3.PeerAddress tables3.Peers[i] }) ∧
      (stamped (sendOne tables3 (node3 2 ['b']) ⟨BROADCAST, 0, ['h', 'i']⟩
        { MessageId := 2000, sent := [], panicked := false })).Nodup ∧
      (BROADCAST ∉ tables3.Peers →
        ∀ t ∈ (sendOne tables3 (node3 2 ['b']) ⟨BROADCAST, 0, ['h', 'i']⟩
            { MessageId := 2000, sent := [], panicked := false }).sent,
          t.msg.Pid ≠ BROADCAST) :=
  broadcast_fanout conf3 _ tables3 (node3 2 ['b']) ⟨BROADCAST, 0, ['h', 'i']⟩ 2000
    NewCluster_conf3 (by decide) rfl (by decide) (by decide)

/-- C5, amended: for a node built by `NewCluster` and any sequence of envelopes drained
from its outbox, as long as the counter stays within `int64` (the seed `ServerId * 1000`
fits and seed plus number of transmissions is at most `2 ^ 63`), the ids stamped on the
successive transmissions are the seed, seed + 1, seed + 2, ...: a strictly increasing
sequence. -/
theorem stamped_increasing (content : List Char) (nodes : List servernode) (tb : Tables)
    (s : servernode) (outbox : List Envelope)
    (hc : NewCluster content Tables.empty = some (nodes, tb)) (hs : s ∈ nodes)
    (hseed : InInt64 (s.ServerId * 1000))
    (hno : s.ServerId * 1000 + ((SendMessages tb s outbox).sent.length : Int) ≤ 2 ^ 63) :
    stamped (SendMessages tb s outbox) =
        (List.range (SendMessages tb s outbox).sent.length).map
          (fun (i : Nat) => s.ServerId * 1000 + (i : Int)) ∧
      (stamped (SendMessages tb s outbox)).Pairwise (fun a b => a < b) := by
  obtain ⟨_, hn⟩ := NewCluster_some content Tables.empty tb nodes hc
  subst hn
  obtain ⟨q, _, rfl⟩ := List.mem_map.1 hs
  have hid : (nodeOf tb q).MessageId = q * 1000 := wrap64_of_InInt64 _ hseed
  have hst := stamped_SendMessages tb (nodeOf tb q) outbox (by rw [hid]; exact hseed)
  have heq : stamped (SendMessages tb (nodeOf tb q) outbox) =
      (List.range (SendMessages tb (nodeOf tb q) outbox).sent.length).map
        (fun (i : Nat) => q * 1000 + (i : Int)) := by
    rw [hst]
    apply List.map_congr_left
    intro i hi
    rw [List.mem_range] at hi
    rw [hid]
    apply wrap64_of_InInt64
    have h1 : (nodeOf tb q).ServerId = q := rfl
    rw [h1] at hno hseed
    unfold InInt64 at hseed ⊢
    omega
  refine ⟨heq, ?_⟩
  rw [heq, List.pairwise_map]
  refine List.Pairwise.imp ?_ (List.pairwise_lt_range _)
  intro a b hab
  omega

/-- Witness of the amended C5: node 2 of `conf3` sends a unicast, a broadcast and
another unicast. -/
theorem stamped_increasing_witness :
    stamped (SendMessages tables3 (node3 2 ['b'])
        [⟨3, 7, ['x']⟩, ⟨BROADCAST, 7, ['y']⟩, ⟨1, 7, []⟩]) =
        (List.range (SendMessages tables3 (node3 2 ['b'])
          [⟨3, 7, ['x']⟩, ⟨BROADCAST, 7, ['y']⟩, ⟨1, 7, []⟩]).sent.length).map
          (fun (i : Nat) => (node3 2 ['b']).ServerId * 1000 + (i : Int)) ∧
      (stamped (SendMessages tables3 (node3 2 ['b'])
        [⟨3, 7, ['x']⟩, ⟨BROADCAST, 7, ['y']⟩, ⟨1, 7, []⟩])).Pairwise (fun a b => a < b) :=
  stamped_increasing conf3 _ tables3 (node3 2 ['b'])
    [⟨3, 7, ['x']⟩, ⟨BROADCAST, 7, ['y']⟩, ⟨1, 7, []⟩] NewCluster_conf3 (by decide)
    (by decide) (by decide)

/-! ## The configuration file: claims C6 and C7 -/

theorem lines3_wellFormed : ∀ l ∈ lines3, l.WellFormed := by decide

/-- C6, the code at two failing inputs: after the record `1,a` a blank line holding
one space makes `ParseConfig` panic (the line passes the test `line[0] != ""`, made
before any trimming, and has no `pair[1]`), and a second record `2,b` that ends the file
without a newline is not read (it comes back from `ReadString` together with `io.EOF`,
on which the loop breaks): `ParseConfig` returns 0 with one entry for two records. -/
theorem ParseConfig_failing_inputs :
    ParseConfig ['1', ',', 'a', Char.ofNat 10, ' ', Char.ofNat 10] Tables.empty = none ∧
      ParseConfig ['1', ',', 'a', Char.ofNat 10, '2', ',', 'b'] Tables.empty =
        some (0, { Peers := [1], PeerAddress := [(1, ['a'])], peerIdIndex := [(1, 0)] }) := by
  decide

/-- Where the parser does build the table of the file: for a file whose lines are all
newline-terminated and are records `id,address` (no `#` and no further comma in them)
with pairwise distinct ids and pairwise distinct trimmed addresses, comment lines
(lines containing `#`) and empty lines, `ParseConfig` from empty tables returns 0 and
leaves a table of exactly the records: `Peers` lists the ids in file order and
`PeerAddress` has one entry per record, mapping each id to its trimmed address. -/
theorem ParseConfig_records (ls : List ConfLine) (hwf : ∀ l ∈ ls, l.WellFormed)
    (h1 : ((records ls).map Prod.fst).Nodup) (h2 : ((records ls).map Prod.snd).Nodup) :
    ∃ tb, ParseConfig (renderFile ls) Tables.empty = some (0, tb) ∧
      tb.Peers = (records ls).map Prod.fst ∧
      tb.PeerAddress.length = (records ls).length ∧
      ∀ r ∈ records ls, mapGet [] tb.PeerAddress r.1 = r.2 := by
  have hp := ParseConfig_wellFormed ls [] hwf h1 h2
  simp only [List.append_nil, readLines, parseLines] at hp
  obtain ⟨ht1, ht2⟩ := foldl_addPeer_tables (records ls) Tables.empty KeysOk_empty
    (Fresh_empty _ h1 h2)
  have hs1 : ((records ls).foldl addPeer Tables.empty).Peers = (records ls).map Prod.fst := by
    rw [ht1]; rfl
  have hs2 : ((records ls).foldl addPeer Tables.empty).PeerAddress = (records ls).reverse := by
    rw [ht2]; exact List.append_nil _
  refine ⟨_, hp, hs1, by rw [hs2, List.length_reverse], ?_⟩
  intro r hr
  have hl : ((records ls).foldl addPeer Tables.empty).PeerAddress.lookup r.1 = some r.2 := by
    rw [hs2]
    apply lookup_of_mem_nodup
    · rw [List.map_reverse, List.nodup_reverse]
      exact h1
    · exact List.mem_reverse.2 hr
  simp [mapGet, hl]

/-- The table of the five lines of `lines3`. -/
theorem ParseConfig_records_lines3 :
    ∃ tb, ParseConfig (renderFile lines3) Tables.empty = some (0, tb) ∧
      tb.Peers = (records lines3).map Prod.fst ∧
      tb.PeerAddress.length = (records lines3).length ∧
      ∀ r ∈ records lines3, mapGet [] tb.PeerAddress r.1 = r.2 :=
  ParseConfig_records lines3 lines3_wellFormed (by decide) (by decide)

/-- C7, counterexample: the line `1,b#x` repeats the id of the accepted record `1,a`
with a new address, yet `ParseConfig` returns 0 and leaves the table of `1,a` alone: a
line that contains `#` anywhere is skipped as a comment. -/
theorem ParseConfig_hash_counterexample :
    ParseConfig ['1', ',', 'a', Char.ofNat 10, '1', ',', 'b', '#', 'x', Char.ofNat 10]
        Tables.empty =
      some (0, { Peers := [1], PeerAddress := [(1, ['a'])], peerIdIndex := [(1, 0)] }) := by
  decide

/-- C7, amended: after any newline-terminated lines that are accepted (records
`id,address` without `#` and without a further comma, with pairwise distinct ids and
addresses; comment lines, which are the lines containing `#`; empty lines), a record of
that form whose id is that of an earlier record, whichever one, and whose address is new
makes `ParseConfig` return 1, and one whose id is new and whose address is that of an
earlier record, whichever one, makes it return 2; in both cases, whatever follows in the
file, the tables are left as the lines before the offending record made them. -/
theorem ParseConfig_duplicate (ls : List ConfLine) (n : Int) (i a rest : List Char)
    (hwf : ∀ l ∈ ls, l.WellFormed) (h1 : ((records ls).map Prod.fst).Nodup)
    (h2 : ((records ls).map Prod.snd).Nodup) (hrec : (ConfLine.record n i a).WellFormed) :
    ∃ tb, ParseConfig (renderFile ls) Tables.empty = some (0, tb) ∧
      tb.Peers = (records ls).map Prod.fst ∧
      (n ∈ (records ls).map Prod.fst → TrimSpace a ∉ (records ls).map Prod.snd →
        ParseConfig (renderFile ls ++ ((ConfLine.record n i a).text ++ Char.ofNat 10 :: rest))
          Tables.empty = some (1, tb)) ∧
      (n ∉ (records ls).map Prod.fst → TrimSpace a ∈ (records ls).map Prod.snd →
        ParseConfig (renderFile ls ++ ((ConfLine.record n i a).text ++ Char.ofNat 10 :: rest))
          Tables.empty = some (2, tb)) := by
  have hp := ParseConfig_wellFormed ls [] hwf h1 h2
  simp only [List.append_nil, readLines, parseLines] at hp
  have hq := ParseConfig_wellFormed ls ((ConfLine.record n i a).text ++ Char.ofNat 10 :: rest)
    hwf h1 h2
  rw [readLines_line _ _ _ (WellFormed_no_newline _ hrec)] at hq
  simp only [List.nil_append, parseLines, processLine_record n i a _ _ hrec] at hq
  obtain ⟨ht1, ht2⟩ := foldl_addPeer_tables (records ls) Tables.empty KeysOk_empty
    (Fresh_empty _ h1 h2)
  have hs1 : ((records ls).foldl addPeer Tables.empty).Peers = (records ls).map Prod.fst := by
    rw [ht1]; rfl
  have hs2 : ((records ls).foldl addPeer Tables.empty).PeerAddress = (records ls).reverse := by
    rw [ht2]; exact List.append_nil _
  refine ⟨_, hp, hs1, ?_, ?_⟩
  · intro hn ha
    rw [hq, dupCheck_dup_id n (TrimSpace a) _ _ (by rw [hs1]; exact hn) ?_]
    intro kv hkv e
    rw [hs2] at hkv
    exact ha (e ▸ List.mem_map_of_mem Prod.snd (List.mem_reverse.1 hkv))
  · intro hn ha
    obtain ⟨kv, hkv, e⟩ := List.mem_map.1 ha
    rw [hq, dupCheck_dup_address n (TrimSpace a) _ _ (by rw [hs1]; exact hn) ?_
      ⟨kv, by rw [hs2]; exact List.mem_reverse.2 hkv, e⟩]
    rw [hs1]
    intro hnil
    have := List.mem_map_of_mem Prod.fst hkv
    rw [hnil] at this
    simp at this

/-- Witness of the amended C7: after the lines of `lines3`, the record `1,d` repeats the id of the
first record and the record `4,b` repeats the address of the second; a further record
`5,e` follows. -/
theorem ParseConfig_duplicate_witness :
    ParseConfig (renderFile lines3 ++
        ((ConfLine.record 1 ['1'] ['d']).text ++ Char.ofNat 10 :: ['5', ',', 'e', Char.ofNat 10]))
        Tables.empty = some (1, tables3) ∧
      ParseConfig (renderFile lines3 ++
        ((ConfLine.record 4 ['4'] ['b']).text ++ Char.ofNat 10 :: ['5', ',', 'e', Char.ofNat 10]))
        Tables.empty = some (2, tables3) := by
  obtain ⟨tb1, h1, _, hid, _⟩ := ParseConfig_duplicate lines3 1 ['1'] ['d']
    ['5', ',', 'e', Char.ofNat 10] lines3_wellFormed (by decide) (by decide) (by decide)
  obtain ⟨tb2, h2, _, _, haddr⟩ := ParseConfig_duplicate lines3 4 ['4'] ['b']
    ['5', ',', 'e', Char.ofNat 10] lines3_wellFormed (by decide) (by decide) (by decide)
  have e : ParseConfig (renderFile lines3) Tables.empty = some (0, tables3) := by decide
  rw [e] at h1 h2
  simp only [Option.some.injEq, Prod.mk.injEq, true_and] at h1 h2
  subst h1
  subst h2
  exact ⟨hid (by decide) (by decide), haddr (by decide) (by decide)⟩

theorem sendLoop_unicast_length (tb : Tables) (s : servernode) (outbox : List Envelope)
    (run : SendRun)
    (h : ∀ m ∈ outbox, m.Pid ≠ BROADCAST ∧
      (s.Peersockets[mapGet 0 tb.peerIdIndex m.Pid]?).isSome = true)
    (hp : run.panicked = false) :
    (sendLoop tb s outbox run).sent.length = run.sent.length + outbox.length := by
  induction outbox generalizing run with
  | nil => simp [sendLoop]
  | cons m more ih =>
    obtain ⟨hb, hsock⟩ := h m (by simp)
    obtain ⟨sock, hsome⟩ := Option.isSome_iff_exists.1 hsock
    have hone : sendOne tb s m run =
        { MessageId := wrap64 (run.MessageId + 1)
          sent := run.sent ++ [{ index := mapGet 0 tb.peerIdIndex m.Pid, socket := sock,
                                 msg := { m with MsgId := run.MessageId } }]
          panicked := false } := by
      unfold sendOne
      simp only [hb, if_false, hsome]
    simp only [sendLoop, hone, Bool.false_eq_true, if_false]
    rw [ih _ (fun x hx => h x (by simp [hx])) rfl]
    simp only [List.length_append, List.length_singleton, List.length_cons, List.length_nil]
    omega

/-- C5, counterexample: the node of id 9223372036854775 is seeded with
9223372036854775000; of 809 envelopes it sends, the 808th is stamped with the largest
`int64` and the 809th with the smallest. -/
theorem stamped_overflow_counterexample :
    (NewCluster confBig Tables.empty).map (fun r => r.1.map (fun s =>
        (s.ServerId, s.MessageId,
          (stamped (SendMessages r.2 s
            (List.replicate 809 ⟨9223372036854775, 0, []⟩))).drop 807))) =
      some [(9223372036854775, 9223372036854775000,
        [9223372036854775807, -9223372036854775808])] := by
  have hN : NewCluster confBig Tables.empty = some ([nodeBig], tablesBig) := by decide
  have hlen : (SendMessages tablesBig nodeBig
      (List.replicate 809 ⟨9223372036854775, 0, []⟩)).sent.length = 809 := by
    unfold SendMessages
    rw [sendLoop_unicast_length _ _ _ _ ?_ rfl]
    · simp only [List.length_nil, List.length_replicate, Nat.zero_add]
    · intro m hm
      rw [List.eq_of_mem_replicate hm]
      decide
  have hdrop : (List.range 809).drop 807 = [807, 808] := by
    have hr : List.range 809 = List.range 807 ++ [807, 808] := by
      rw [show (809 : Nat) = 807 + 1 + 1 from rfl, List.range_succ, List.range_succ,
        List.append_assoc]
      rfl
    rw [hr, List.drop_left' (List.length_range 807)]
  rw [hN]
  simp only [Option.map_some', List.map_cons, List.map_nil]
  rw [stamped_SendMessages _ _ _ (by decide), hlen, ← List.map_drop, hdrop]
  decide

end Cluster
